import Mathlib

/-!
Verification of the MyES presentation generator's parsing and layout engine
(`generate_myes_presentation_enhanced.py`).

The Python code is shallowly embedded: strings are modelled as `List Char`
(Python `len` counts code points, matching `List.length` on `Char`),
Python floats as exact rationals `ℚ`, Python `int()` truncation as `pyInt`,
and the regular expressions used by the source as explicit recursive
functions whose semantics were derived from the concrete patterns
(all of which are anchored and simple enough to admit a direct reading).
`\s`, the letter classes of `\w`, and `str.strip` are modelled over their
ASCII ranges (the markup files the program consumes are ASCII/Latin text and
no claim depends on exotic whitespace); `\d`, however, is modelled in full:
Python's `\d` (str patterns, no `re.ASCII`) matches every Unicode decimal
digit (general category Nd), and the math normalizer's behaviour on the
non-ASCII ones — the dictionary fallback returns the digit itself, deleting
the `^`/`_` marker — is what refutes its claimed idempotence.
-/

namespace Myes

/-! ### Character classes (ASCII models of Python `\s`, `\d`, `[a-z]`, `[A-Z]`, `\w`) -/

/-- Python whitespace (`\s`, `str.strip`), restricted to ASCII. -/
def pyIsSpace (c : Char) : Bool :=
  c = ' ' || c = '\t' || c = '\n' || c = '\x0d' || c = '\x0b' || c = '\x0c'

/-- ASCII decimal digit, written as an explicit disjunction so that case
analysis on a matching character is by enumeration.  These are exactly the
digits the normalizer's superscript/subscript dictionaries know. -/
def asciiDigitC (c : Char) : Bool :=
  c = '0' || c = '1' || c = '2' || c = '3' || c = '4' ||
  c = '5' || c = '6' || c = '7' || c = '8' || c = '9'

/-- The non-ASCII decimal digits: the code-point ranges of Unicode general
category Nd above U+007F (the table Python's `re` consults for `\d` in str
patterns), from U+0660 ARABIC-INDIC DIGIT ZERO upward. -/
def ndExtraC (c : Char) : Bool :=
  let n := c.toNat
  (0x660 ≤ n && n ≤ 0x669) ||
  (0x6f0 ≤ n && n ≤ 0x6f9) ||
  (0x7c0 ≤ n && n ≤ 0x7c9) ||
  (0x966 ≤ n && n ≤ 0x96f) ||
  (0x9e6 ≤ n && n ≤ 0x9ef) ||
  (0xa66 ≤ n && n ≤ 0xa6f) ||
  (0xae6 ≤ n && n ≤ 0xaef) ||
  (0xb66 ≤ n && n ≤ 0xb6f) ||
  (0xbe6 ≤ n && n ≤ 0xbef) ||
  (0xc66 ≤ n && n ≤ 0xc6f) ||
  (0xce6 ≤ n && n ≤ 0xcef) ||
  (0xd66 ≤ n && n ≤ 0xd6f) ||
  (0xde6 ≤ n && n ≤ 0xdef) ||
  (0xe50 ≤ n && n ≤ 0xe59) ||
  (0xed0 ≤ n && n ≤ 0xed9) ||
  (0xf20 ≤ n && n ≤ 0xf29) ||
  (0x1040 ≤ n && n ≤ 0x1049) ||
  (0x1090 ≤ n && n ≤ 0x1099) ||
  (0x17e0 ≤ n && n ≤ 0x17e9) ||
  (0x1810 ≤ n && n ≤ 0x1819) ||
  (0x1946 ≤ n && n ≤ 0x194f) ||
  (0x19d0 ≤ n && n ≤ 0x19d9) ||
  (0x1a80 ≤ n && n ≤ 0x1a89) ||
  (0x1a90 ≤ n && n ≤ 0x1a99) ||
  (0x1b50 ≤ n && n ≤ 0x1b59) ||
  (0x1bb0 ≤ n && n ≤ 0x1bb9) ||
  (0x1c40 ≤ n && n ≤ 0x1c49) ||
  (0x1c50 ≤ n && n ≤ 0x1c59) ||
  (0xa620 ≤ n && n ≤ 0xa629) ||
  (0xa8d0 ≤ n && n ≤ 0xa8d9) ||
  (0xa900 ≤ n && n ≤ 0xa909) ||
  (0xa9d0 ≤ n && n ≤ 0xa9d9) ||
  (0xa9f0 ≤ n && n ≤ 0xa9f9) ||
  (0xaa50 ≤ n && n ≤ 0xaa59) ||
  (0xabf0 ≤ n && n ≤ 0xabf9) ||
  (0xff10 ≤ n && n ≤ 0xff19) ||
  (0x104a0 ≤ n && n ≤ 0x104a9) ||
  (0x10d30 ≤ n && n ≤ 0x10d39) ||
  (0x11066 ≤ n && n ≤ 0x1106f) ||
  (0x110f0 ≤ n && n ≤ 0x110f9) ||
  (0x11136 ≤ n && n ≤ 0x1113f) ||
  (0x111d0 ≤ n && n ≤ 0x111d9) ||
  (0x112f0 ≤ n && n ≤ 0x112f9) ||
  (0x11450 ≤ n && n ≤ 0x11459) ||
  (0x114d0 ≤ n && n ≤ 0x114d9) ||
  (0x11650 ≤ n && n ≤ 0x11659) ||
  (0x116c0 ≤ n && n ≤ 0x116c9) ||
  (0x11730 ≤ n && n ≤ 0x11739) ||
  (0x118e0 ≤ n && n ≤ 0x118e9) ||
  (0x11950 ≤ n && n ≤ 0x11959) ||
  (0x11c50 ≤ n && n ≤ 0x11c59) ||
  (0x11d50 ≤ n && n ≤ 0x11d59) ||
  (0x11da0 ≤ n && n ≤ 0x11da9) ||
  (0x16a60 ≤ n && n ≤ 0x16a69) ||
  (0x16ac0 ≤ n && n ≤ 0x16ac9) ||
  (0x16b50 ≤ n && n ≤ 0x16b59) ||
  (0x1d7ce ≤ n && n ≤ 0x1d7ff) ||
  (0x1e140 ≤ n && n ≤ 0x1e149) ||
  (0x1e2f0 ≤ n && n ≤ 0x1e2f9) ||
  (0x1e950 ≤ n && n ≤ 0x1e959) ||
  (0x1fbf0 ≤ n && n ≤ 0x1fbf9)

/-- Python regex `\d` (str pattern, no `re.ASCII`): every Unicode decimal
digit — ASCII `0`-`9` plus the other Nd code points. -/
def isDigitC (c : Char) : Bool := asciiDigitC c || ndExtraC c

/-- ASCII lowercase letter (`[a-z]`). -/
def isLowerC (c : Char) : Bool := 'a' ≤ c && c ≤ 'z'

/-- ASCII uppercase letter (`[A-Z]`). -/
def isUpperC (c : Char) : Bool := 'A' ≤ c && c ≤ 'Z'

/-- Word character (`\w`), ASCII model. -/
def isWordC (c : Char) : Bool :=
  isLowerC c || isUpperC c || isDigitC c || c = '_'

/-- ASCII character (code point below 128).  Every pattern the source
matches on is pure ASCII, while every replacement it emits is non-ASCII;
this drives the idempotence argument for the math normalizer. -/
def isAsciiC (c : Char) : Bool := c.toNat < 128

/-- The text of a string literal as a character list. -/
def str (s : String) : List Char := s.data

/-! ### List-of-char string primitives -/

/-- `isPre p s` : `p` is a prefix of `s` (Python `str.startswith`). -/
def isPre : List Char → List Char → Bool
  | [], _ => true
  | _ :: _, [] => false
  | a :: as, b :: bs => a = b && isPre as bs

/-- `containsSub pat s` : `pat` occurs as a contiguous substring of `s`
(Python `pat in s`). -/
def containsSub (pat : List Char) : List Char → Bool
  | [] => decide (pat = [])
  | c :: rest => isPre pat (c :: rest) || containsSub pat rest

/-- Strip leading whitespace (`str.lstrip`). -/
def lstripC (l : List Char) : List Char := l.dropWhile pyIsSpace

/-- Strip trailing whitespace (`str.rstrip`). -/
def rstripC (l : List Char) : List Char := (l.reverse.dropWhile pyIsSpace).reverse

/-- Strip both ends (`str.strip`). -/
def stripC (l : List Char) : List Char := lstripC (rstripC l)

/-- Python `str.split(sep)` for a one-character separator: keeps empty pieces,
always returns at least one piece. -/
def splitOnC (sep : Char) : List Char → List (List Char)
  | [] => [[]]
  | c :: rest =>
    if c = sep then [] :: splitOnC sep rest
    else
      match splitOnC sep rest with
      | h :: t => (c :: h) :: t
      | [] => [[c]]

/-- Worker for `wsSplit`: `acc` holds the reversed current word. -/
def wsSplitAux (acc : List Char) : List Char → List (List Char)
  | [] => if acc = [] then [] else [acc.reverse]
  | c :: rest =>
    if pyIsSpace c then
      if acc = [] then wsSplitAux [] rest
      else acc.reverse :: wsSplitAux [] rest
    else wsSplitAux (c :: acc) rest

/-- Python `str.split()` (no argument): split on whitespace runs, dropping
empty pieces. -/
def wsSplit (l : List Char) : List (List Char) := wsSplitAux [] l

/-- Fuel-indexed worker for `replAll`; fuel bounds the number of scan steps so
that the recursion is structural (and hence kernel-reducible).  With fuel at
least the length of the string the fuel never runs out. -/
def replAllF (old new : List Char) : Nat → List Char → List Char
  | _, [] => []
  | 0, s => s
  | n + 1, c :: rest =>
    if isPre old (c :: rest) && !old.isEmpty
    then new ++ replAllF old new n (rest.drop (old.length - 1))
    else c :: replAllF old new n rest

/-- Python `s.replace(old, new)`: replace every (leftmost, non-overlapping)
occurrence of `old` in `s` by `new`, scanning left to right.  The source only
ever calls it with non-empty `old`; the guard keeps the model total. -/
def replAll (old new s : List Char) : List Char := replAllF old new s.length s

theorem replAllF_congr (old new : List Char) :
    ∀ n m s, s.length ≤ n → s.length ≤ m →
      replAllF old new n s = replAllF old new m s := by
  intro n
  induction n with
  | zero =>
    intro m s hn _
    cases s with
    | nil => cases m <;> rfl
    | cons c rest => simp at hn
  | succ n ih =>
    intro m s hn hm
    cases s with
    | nil => cases m <;> rfl
    | cons c rest =>
      cases m with
      | zero => simp at hm
      | succ m =>
        simp only [replAllF]
        have h1 : (rest.drop (old.length - 1)).length ≤ n := by
          have := List.length_drop (old.length - 1) rest
          simp at hn ⊢
          omega
        have h2 : (rest.drop (old.length - 1)).length ≤ m := by
          have := List.length_drop (old.length - 1) rest
          simp at hm ⊢
          omega
        have h3 : rest.length ≤ n := by simp at hn; omega
        have h4 : rest.length ≤ m := by simp at hm; omega
        rw [ih m _ h1 h2, ih m _ h3 h4]

theorem replAll_nil (old new : List Char) : replAll old new [] = [] := rfl

/-- The natural unfolding of `replAll`, hiding the fuel. -/
theorem replAll_cons (old new : List Char) (c : Char) (rest : List Char) :
    replAll old new (c :: rest) =
      if isPre old (c :: rest) && !old.isEmpty
      then new ++ replAll old new (rest.drop (old.length - 1))
      else c :: replAll old new rest := by
  show replAllF old new (rest.length + 1) (c :: rest) = _
  simp only [replAllF]
  split
  · unfold replAll
    congr 1
    refine replAllF_congr old new rest.length _ _ ?_ (le_refl _)
    simp [List.length_drop]
  · rfl

/-! ### List/bullet detector and cleaner
(`is_list_content`, `clean_bullet_marker`, source lines 113-130.)

The four detector patterns are `^\s*[•\-\*]`, `^\s*\d+\.`, `^\s*[a-z]\)`,
`^\s*[A-Z]\.` (all anchored, applied with `re.match`).  Because `\s*` is
followed by a character class that matches no whitespace character,
backtracking into the whitespace run can never help: each pattern matches
iff the condition holds right after the maximal leading whitespace run. -/

/-- `\d+\.` read from position 0 with backtracking: some non-empty digit run
followed immediately by a dot (only the maximal run can be followed by a
non-digit, so this is "maximal digit run, then a dot"). -/
def dotAfterDigits : List Char → Bool
  | [] => false
  | c :: rest => c = '.' || (isDigitC c && dotAfterDigits rest)

def digitsThenDot : List Char → Bool
  | [] => false
  | c :: rest => isDigitC c && dotAfterDigits rest

/-- `re.match(r'^\s*[•\-\*]', line)` succeeds. -/
def matchBulletGlyph (l : List Char) : Bool :=
  match lstripC l with
  | c :: _ => c = '•' || c = '-' || c = '*'
  | [] => false

/-- `re.match(r'^\s*\d+\.', line)` succeeds. -/
def matchBulletNum (l : List Char) : Bool := digitsThenDot (lstripC l)

/-- `re.match(r'^\s*[a-z]\)', line)` succeeds. -/
def matchBulletLowerParen (l : List Char) : Bool :=
  match lstripC l with
  | a :: b :: _ => isLowerC a && b = ')'
  | _ => false

/-- `re.match(r'^\s*[A-Z]\.', line)` succeeds. -/
def matchBulletUpperDot (l : List Char) : Bool :=
  match lstripC l with
  | a :: b :: _ => isUpperC a && b = '.'
  | _ => false

/-- `any(re.match(p, line) for p in bullet_patterns)`. -/
def matchesBulletPat (l : List Char) : Bool :=
  matchBulletGlyph l || matchBulletNum l || matchBulletLowerParen l ||
    matchBulletUpperDot l

/-- `is_list_content(lines)`.  The source computes
`matching >= len(lines) * 0.5` on floats; for integer `matching` and
`len(lines)` this is exactly `2 * matching ≥ len(lines)` (both sides are
dyadic rationals, so the float comparison is exact). -/
def isListContent (lines : List (List Char)) : Bool :=
  if lines.isEmpty then false
  else 2 * lines.countP matchesBulletPat ≥ lines.length

/-- One `re.sub(r'^\s*[•\-\*]\s*', '', text)` pass: the anchored pattern can
match only at position 0, so at most one marker is removed. -/
def stripGlyphMarker (l : List Char) : List Char :=
  match lstripC l with
  | c :: rest => if c = '•' || c = '-' || c = '*' then lstripC rest else l
  | [] => l

/-- One `re.sub(r'^\s*\d+\.\s*', '', text)` pass. -/
def stripNumMarker (l : List Char) : List Char :=
  match (lstripC l).dropWhile isDigitC, (lstripC l).takeWhile isDigitC with
  | c :: rest, _ :: _ => if c = '.' then lstripC rest else l
  | _, _ => l

/-- One `re.sub(r'^\s*[a-z]\)\s*', '', text)` pass. -/
def stripLowerParenMarker (l : List Char) : List Char :=
  match lstripC l with
  | a :: b :: rest => if isLowerC a && b = ')' then lstripC rest else l
  | _ => l

/-- `clean_bullet_marker(text)`: the three anchored substitutions are applied
in sequence, each to the result of the previous one. -/
def cleanBulletMarker (l : List Char) : List Char :=
  stripLowerParenMarker (stripNumMarker (stripGlyphMarker l))

/-! ### Question splitter (`split_questions`, source lines 134-151)

The separator regex is `\?\s*(?=\d+\.|\b[A-Z])`.  The greedy `\s*` backtracks
until the lookahead succeeds, but the lookahead can only succeed at the
position right after the maximal whitespace run (at any earlier position the
next character is whitespace, which starts neither alternative), and the
word boundary `\b` before `[A-Z]` always holds there because the preceding
character is `?` or whitespace. -/

/-- The lookahead `(?=\d+\.|\b[A-Z])` applied after the `?` (whitespace run
still to be skipped): succeeds iff after the whitespace comes a digit run
followed by a dot, or an uppercase letter. -/
def qLook (rest : List Char) : Bool :=
  digitsThenDot (lstripC rest) ||
    (match lstripC rest with
     | c :: _ => isUpperC c
     | [] => false)

/-- Fuel-indexed worker for `qSplit` (fuel makes the `dropWhile` jump
structural). -/
def qSplitF : Nat → List Char → List Char → List (List Char)
  | _, acc, [] => [acc.reverse]
  | 0, acc, s => [acc.reverse ++ s]
  | n + 1, acc, c :: rest =>
    if c = '?' && qLook rest then
      acc.reverse :: qSplitF n [] (rest.dropWhile pyIsSpace)
    else qSplitF n (c :: acc) rest

/-- `re.split(r'\?\s*(?=\d+\.|\b[A-Z])', text)`: the pieces of `text` around
each separator match; the matched `?` and following whitespace are dropped. -/
def qSplit (s : List Char) : List (List Char) := qSplitF s.length [] s

/-- The body of the `for q in questions` loop of `split_questions`:
strip, drop empties, append a `?` when missing. -/
def appendQ (r : List (List Char)) (q : List Char) : List (List Char) :=
  let q' := stripC q
  if q' = [] then r
  else if q'.getLast? = some '?' then r ++ [q'] else r ++ [q' ++ ['?']]

/-- `split_questions(text)`. -/
def splitQuestions (s : List Char) : List (List Char) :=
  let result := (qSplit s).foldl appendQ []
  if result = [] then [s] else result

/-! ### Style tags (`parse_styled_text`, `apply_style`, and the per-paragraph
styling of `add_textbox`; source lines 155-179 and 314-348) -/

/-- A style descriptor from the configuration's `styles` table.  Fields are
`Option` because the Python dicts may omit keys (`style.get("font_size", 22)`,
`"color" in style`, `style.get("bold", False)`, `style.get("italic", False)`). -/
structure StyleDef where
  font_size : Option Nat
  color : Option (Nat × Nat × Nat)
  bold : Option Bool
  italic : Option Bool
deriving DecidableEq, Repr

/-- The font attributes of a rendered paragraph.  `none` means the attribute
was never assigned (python-pptx then inherits the theme default). -/
structure ParaFont where
  name : Option (List Char)
  size : Option Nat
  color : Option (Nat × Nat × Nat)
  bold : Option Bool
  italic : Option Bool
deriving DecidableEq, Repr

/-- The slice of the configuration the styling path reads. -/
structure Config where
  font_name : List Char
  text_color : Nat × Nat × Nat
  styles : List (List Char × StyleDef)
deriving DecidableEq, Repr

/-- Ordered-dict lookup. -/
def lookupD {α : Type} (tbl : List (List Char × α)) (k : List Char) : Option α :=
  match tbl with
  | [] => none
  | (k', v) :: t => if k' = k then some v else lookupD t k

/-- The `styles` table of `DEFAULT_CONFIG` (source lines 49-54). -/
def defaultStyles : List (List Char × StyleDef) :=
  [(str "vocabulary", ⟨some 24, some (0, 102, 0), some true, none⟩),
   (str "question", ⟨some 20, some (102, 0, 102), some false, none⟩),
   (str "answer", ⟨some 18, some (128, 128, 128), none, some true⟩),
   (str "emphasis", ⟨some 22, some (192, 0, 0), some true, none⟩)]

/-- The styling-relevant slice of `DEFAULT_CONFIG` (source lines 39-55). -/
def defaultConfig : Config :=
  { font_name := str "Montserrat"
    text_color := (0, 0, 102)
    styles := defaultStyles }

/-- `apply_style(paragraph, style_name, config)`: when `style_name` is in the
style table, assign size (default 22), color (only if present), bold and
italic (defaults `False`); when it is not, the function does nothing at all. -/
def applyStyle (p : ParaFont) (styleName : List Char) (cfg : Config) : ParaFont :=
  match lookupD cfg.styles styleName with
  | some st =>
    { p with
      size := some (st.font_size.getD 22)
      color := match st.color with
               | some c => some c
               | none => p.color
      bold := some (st.bold.getD false)
      italic := some (st.italic.getD false) }
  | none => p

/-- Backtracking of `\s*(.+)`: try the position after `k` whitespace
characters, retreating one character at a time until `.+` can match
(a non-`'\n'` character is present); the captured group is the maximal
`'\n'`-free run from the chosen position. -/
def styledBack (r : List Char) : Nat → Option (List Char)
  | 0 =>
    match r with
    | c :: _ => if c = '\n' then none else some (r.takeWhile (fun d => d ≠ '\n'))
    | [] => none
  | k + 1 =>
    match (r.drop (k + 1)).head? with
    | some c =>
      if c = '\n' then styledBack r k
      else some ((r.drop (k + 1)).takeWhile (fun d => d ≠ '\n'))
    | none => styledBack r k

/-- `\s*(.+)` applied at `r`: greedy whitespace run, then at least one
character. -/
def styledRemainder (r : List Char) : Option (List Char) :=
  styledBack r (r.takeWhile pyIsSpace).length

/-- `parse_styled_text(text)`: match `^\[(\w+)\]\s*(.+)` and return
`(tag, remainder)`, or `(none, text)` when the regex does not match.
`\w+` is greedy and `]` is not a word character, so only the maximal word
run can be followed by the required `]`. -/
def parseStyledText (l : List Char) : Option (List Char) × List Char :=
  match l with
  | '[' :: rest =>
    let w := rest.takeWhile isWordC
    if w.isEmpty then (none, l)
    else
      match rest.drop w.length with
      | ']' :: r2 =>
        match styledRemainder r2 with
        | some txt => (some w, txt)
        | none => (none, l)
      | _ => (none, l)
  | _ => (none, l)

/-- The per-paragraph font assignments of `add_textbox` (normal mode,
source lines 319-342): `p.font.name` is always set to the configured family;
then either `apply_style` runs (tag present) or the caller-supplied size and
the configured body color are assigned (no tag). -/
def renderLineFont (item : List Char) (fontSize : Nat) (cfg : Config) : ParaFont :=
  let st := (parseStyledText item).1
  let base : ParaFont :=
    { name := some cfg.font_name, size := none, color := none,
      bold := none, italic := none }
  match st with
  | some s => applyStyle base s cfg
  | none => { base with size := some fontSize, color := some cfg.text_color }

/-! ### Math/symbol normalizer (`process_math`, source lines 183-207) -/

/-- The `superscripts` dict lookup; the final `else` mirrors the fallback of
`superscripts.get(m.group(1), m.group(1))`, which returns the matched digit
itself — in particular any non-ASCII decimal digit, deleting the caret. -/
def supMap (c : Char) : Char :=
  if c = '0' then '⁰' else if c = '1' then '¹' else if c = '2' then '²'
  else if c = '3' then '³' else if c = '4' then '⁴' else if c = '5' then '⁵'
  else if c = '6' then '⁶' else if c = '7' then '⁷' else if c = '8' then '⁸'
  else if c = '9' then '⁹' else c

/-- The `subscripts` dict lookup, with the same fallback. -/
def subMap (c : Char) : Char :=
  if c = '0' then '₀' else if c = '1' then '₁' else if c = '2' then '₂'
  else if c = '3' then '₃' else if c = '4' then '₄' else if c = '5' then '₅'
  else if c = '6' then '₆' else if c = '7' then '₇' else if c = '8' then '₈'
  else if c = '9' then '₉' else c

/-- `re.sub(r'MK(\d)', f, text)` for a one-character marker `MK`: scan left to
right; at a marker followed by a digit, emit `f digit` and skip both
characters; otherwise copy one character and continue. -/
def pairSub (mk : Char) (f : Char → Char) : List Char → List Char
  | [] => []
  | [a] => [a]
  | a :: b :: t =>
    if a = mk && isDigitC b then f b :: pairSub mk f t
    else a :: pairSub mk f (b :: t)

/-- The superscript pass `re.sub(r'\^(\d)', ...)`. -/
def supSub : List Char → List Char := pairSub '^' supMap

/-- The subscript pass `re.sub(r'_(\d)', ...)`. -/
def subSub : List Char → List Char := pairSub '_' subMap

/-- The `replacements` table, in Python dict insertion order. -/
def mathTable : List (List Char × List Char) :=
  [(str "<=", str "≤"), (str ">=", str "≥"), (str "!=", str "≠"),
   (str "~=", str "≈"), (str "alpha", str "α"), (str "beta", str "β"),
   (str "gamma", str "γ"), (str "delta", str "δ"), (str "pi", str "π"),
   (str "theta", str "θ"), (str "sigma", str "σ")]

/-- `for old, new in replacements.items(): text = text.replace(old, new)`. -/
def applyTable (tbl : List (List Char × List Char)) (s : List Char) : List Char :=
  tbl.foldl (fun t p => replAll p.1 p.2 t) s

/-- `process_math(text)`: superscripts, then subscripts, then the literal
replacement table. -/
def processMath (s : List Char) : List Char :=
  applyTable mathTable (subSub (supSub s))

/-! ### Overflow estimator (`check_text_overflow`, source lines 76-109)

Python float arithmetic is modelled by exact rationals; `int()` truncation
toward zero by `pyInt`. -/

/-- Python `int(q)`: truncation toward zero. -/
def pyInt (q : ℚ) : ℤ := if q < 0 then -⌊-q⌋ else ⌊q⌋

/-- One iteration of the word-wrap loop: state is
`(current_line_length, lines_needed)`. -/
def wrapStep (charsPerLine : ℤ) (st : ℤ × ℤ) (wl : ℤ) : ℤ × ℤ :=
  if st.1 + wl > charsPerLine then (wl, st.2 + 1) else (st.1 + wl, st.2)

/-- The `lines_needed` computation: fold the wrap loop over the word lengths
starting from `current_line_length = 0`, `lines_needed = 1`. -/
def linesNeededFor (charsPerLine : ℤ) (wls : List ℤ) : ℤ :=
  (wls.foldl (wrapStep charsPerLine) (0, 1)).2

/-- `len(word) + 1` for each word of `text.split()`. -/
def wordLens (text : List Char) : List ℤ :=
  (wsSplit text).map (fun w => (w.length : ℤ) + 1)

/-- `check_text_overflow(text, font_size, width_inches, height_inches)`:
returns `(will_overflow, lines_needed, lines_available)`. -/
def checkTextOverflow (text : List Char) (fontSize widthInches heightInches : ℚ) :
    Bool × ℤ × ℤ :=
  let charsPerLine : ℤ := pyInt (widthInches * (72 / fontSize * 2.5))
  let linesNeeded := linesNeededFor charsPerLine (wordLens text)
  let linesAvailable := pyInt (heightInches / (fontSize / 72 * 1.3))
  (linesNeeded > linesAvailable, linesNeeded, linesAvailable)

/-! ### Content parser (`parse_content_file`, source lines 492-580, and
`parse_image_directive`, source lines 211-224)

The input file is modelled as its list of lines (without newline
terminators, which `line.rstrip()` would discard anyway). -/

/-- The value of the `section` variable. -/
inductive Sect where
  | content | left | right | leftTop | rightTop | leftBottom | rightBottom | notes
deriving DecidableEq, Repr

/-- One slide accumulator/record, mirroring the Python dict.  An image
directive is kept as the ordered key→value dict `parse_image_directive`
builds (first entry is `("path", …)` unless overwritten by an explicit
`path=` attribute, exactly as a Python dict would behave). -/
structure SlideRecord where
  title : List Char
  content : List (List Char)
  notes : List (List Char)
  images : List (List (List Char × List Char))
  left : List (List Char)
  right : List (List Char)
  left_top : List (List Char)
  right_top : List (List Char)
  left_bottom : List (List Char)
  right_bottom : List (List Char)
  template : Option (List Char)
deriving DecidableEq, Repr

def emptyRecord : SlideRecord :=
  ⟨[], [], [], [], [], [], [], [], [], [], none⟩

/-- Append a text line to the region named by the active section
(`current[section].append(text)`). -/
def sectAppend (r : SlideRecord) (sc : Sect) (t : List Char) : SlideRecord :=
  match sc with
  | .content => { r with content := r.content ++ [t] }
  | .left => { r with left := r.left ++ [t] }
  | .right => { r with right := r.right ++ [t] }
  | .leftTop => { r with left_top := r.left_top ++ [t] }
  | .rightTop => { r with right_top := r.right_top ++ [t] }
  | .leftBottom => { r with left_bottom := r.left_bottom ++ [t] }
  | .rightBottom => { r with right_bottom := r.right_bottom ++ [t] }
  | .notes => { r with notes := r.notes ++ [t] }

/-- Python dict insert/overwrite (`d[k] = v`): overwrite in place when the
key exists, else append. -/
def upsert (k v : List Char) : List (List Char × List Char) →
    List (List Char × List Char)
  | [] => [(k, v)]
  | (k', v') :: t => if k' = k then (k, v) :: t else (k', v') :: upsert k v t

/-- Python `part.split("=", 1)`: split at the first `=` only, or `none` when
there is no `=` (`"=" in part` is false). -/
def splitOnceEq : List Char → Option (List Char × List Char)
  | [] => none
  | c :: rest =>
    if c = '=' then some ([], rest)
    else
      match splitOnceEq rest with
      | some (a, b) => some (c :: a, b)
      | none => none

/-- `parse_image_directive(line)`. -/
def parseImageDirective (line : List Char) : List (List Char × List Char) :=
  let parts := splitOnC '|' (replAll (str "Image:") [] line)
  let init := [(str "path", stripC (parts.headD []))]
  parts.tail.foldl
    (fun d part =>
      match splitOnceEq part with
      | some (k, v) => upsert (stripC k) (stripC v) d
      | none => d)
    init

/-- A recognized section header: the literal prefix, the region it selects,
and its key for `line.replace(header, "")`. -/
def headerOf (line : List Char) : Option (Sect × List Char) :=
  if isPre (str "Content:") line then some (.content, str "Content:")
  else if isPre (str "Left:") line then some (.left, str "Left:")
  else if isPre (str "Right:") line then some (.right, str "Right:")
  else if isPre (str "LeftTop:") line then some (.leftTop, str "LeftTop:")
  else if isPre (str "RightTop:") line then some (.rightTop, str "RightTop:")
  else if isPre (str "LeftBottom:") line then some (.leftBottom, str "LeftBottom:")
  else if isPre (str "RightBottom:") line then some (.rightBottom, str "RightBottom:")
  else if isPre (str "Notes:") line then some (.notes, str "Notes:")
  else none

/-- The parser state: emitted slides, the in-progress record, and the active
section. -/
structure PState where
  slides : List SlideRecord
  cur : SlideRecord
  sect : Option Sect
deriving DecidableEq, Repr

/-- One iteration of the `for line in f` loop of `parse_content_file`.
Faithful to the source in particular in that the accumulator is reset *only*
when a record is emitted (the `current = {...}` reassignment sits inside
`if current["title"]:`). -/
def parseLine (st : PState) (raw : List Char) : PState :=
  let line := rstripC raw
  if line = [] || line = str "---" then st
  else if isPre (str "Slide ") line then
    if st.cur.title ≠ [] then
      { slides := st.slides ++ [st.cur], cur := emptyRecord, sect := none }
    else { st with sect := none }
  else if isPre (str "Template:") line then
    { st with cur := { st.cur with template := some (stripC (replAll (str "Template:") [] line)) } }
  else if isPre (str "Image:") line then
    { st with cur := { st.cur with images := st.cur.images ++ [parseImageDirective line] } }
  else if isPre (str "Title:") line then
    { st with cur := { st.cur with title := stripC (replAll (str "Title:") [] line) },
              sect := none }
  else
    match headerOf line with
    | some (sc, key) =>
      let text := stripC (replAll key [] line)
      if sc = .leftBottom ∧
          (containsSub (str "1.") text || containsSub (str "2.") text ||
            containsSub (str "3.") text) then
        { st with
          cur := { st.cur with left_bottom := st.cur.left_bottom ++ splitQuestions text },
          sect := some .leftBottom }
      else if text ≠ [] then
        { st with cur := sectAppend st.cur sc text, sect := some sc }
      else { st with sect := some sc }
    | none =>
      match st.sect with
      | some sc => if line ≠ [] then { st with cur := sectAppend st.cur sc line } else st
      | none => st

/-- `parse_content_file`: fold the line handler over the file's lines and
flush the final record when it has a title. -/
def parseContentFile (lines : List (List Char)) : List SlideRecord :=
  let st := lines.foldl parseLine ⟨[], emptyRecord, none⟩
  if st.cur.title ≠ [] then st.slides ++ [st.cur] else st.slides

/-! ### Layout resolution (`build_presentation`, source lines 636-684) -/

inductive LayoutMode where
  | Reading | FourBox | TwoColumn | Single
deriving DecidableEq, Repr

/-- The layout branch taken by `build_presentation` for a slide record
(Python list truthiness = non-emptiness). -/
def layoutMode (s : SlideRecord) : LayoutMode :=
  if !s.left_top.isEmpty && !s.left_bottom.isEmpty &&
      !(!s.right_top.isEmpty || !s.right_bottom.isEmpty) then .Reading
  else if !s.left_top.isEmpty || !s.right_top.isEmpty ||
      !s.left_bottom.isEmpty || !s.right_bottom.isEmpty then .FourBox
  else if !s.left.isEmpty || !s.right.isEmpty then .TwoColumn
  else .Single

/-! ## Claim-side definitions

These follow the *claims'* words (not the source); they exist to be compared
with the source-derived definitions above. -/

/-- Claim C5's reading of the list detector: at least half of the
*non-empty* lines match a bullet pattern. -/
def specIsListHalfNonEmpty (lines : List (List Char)) : Bool :=
  let ne := lines.filter (fun l => !l.isEmpty)
  2 * ne.countP matchesBulletPat ≥ ne.length

/-- Claim C7's reading of the bullet cleaner: strip exactly one leading
marker — whichever strippable form (glyph, numeric-dot, letter-paren) is
present — and nothing more. -/
def specCleanOneMarker (l : List Char) : List Char :=
  if matchBulletGlyph l then stripGlyphMarker l
  else if matchBulletNum l then stripNumMarker l
  else if matchBulletLowerParen l then stripLowerParenMarker l
  else l

/-- Claim C4's reading of unknown-tag handling: the tag is stripped and the
paragraph receives the default body styling (caller-supplied size, configured
body color). -/
def specUnknownTagFont (fontSize : Nat) (cfg : Config) : ParaFont :=
  { name := some cfg.font_name, size := some fontSize,
    color := some cfg.text_color, bold := none, italic := none }

/-! ## Helper lemmas -/

theorem upper_not_glyph (a : Char) (h : isUpperC a = true) :
    (a = '•' || a = '-' || a = '*') = false := by
  cases hb : (decide (a = '•') || decide (a = '-') || decide (a = '*')) with
  | false => rfl
  | true =>
    simp only [Bool.or_eq_true, decide_eq_true_eq] at hb
    rcases hb with (h1 | h1) | h1 <;> subst h1 <;> exact absurd h (by decide)

theorem upper_not_digit (a : Char) (h : isUpperC a = true) :
    isDigitC a = false := by
  have h' := h
  simp only [isUpperC, Bool.and_eq_true, decide_eq_true_eq] at h'
  have hto : a.toNat ≤ 90 := UInt32.le_def.mp (Char.le_def.mp h'.2)
  cases hb : isDigitC a with
  | false => rfl
  | true =>
    exfalso
    simp only [isDigitC, Bool.or_eq_true] at hb
    rcases hb with hb | hb
    · simp only [asciiDigitC, Bool.or_eq_true, decide_eq_true_eq] at hb
      rcases hb with ((((((((h1 | h1) | h1) | h1) | h1) | h1) | h1) | h1) | h1) | h1 <;>
        subst h1 <;> exact absurd h (by decide)
    · simp only [ndExtraC, Bool.or_eq_true, Bool.and_eq_true,
        decide_eq_true_eq] at hb
      omega

theorem dotAfterDigits_iff (t : List Char) :
    dotAfterDigits t = true ↔ (t.dropWhile isDigitC).head? = some '.' := by
  induction t with
  | nil => simp [dotAfterDigits]
  | cons c rest ih =>
    by_cases hc : c = '.'
    · subst hc
      simp [dotAfterDigits, List.dropWhile_cons, show isDigitC '.' = false from rfl]
    · by_cases hd : isDigitC c = true
      · simp [dotAfterDigits, List.dropWhile_cons, hd, hc, ih]
      · simp only [Bool.not_eq_true] at hd
        simp [dotAfterDigits, List.dropWhile_cons, hd, hc]

theorem digitsThenDot_iff (t : List Char) :
    digitsThenDot t = true ↔
      t.takeWhile isDigitC ≠ [] ∧ (t.dropWhile isDigitC).head? = some '.' := by
  cases t with
  | nil => simp [digitsThenDot]
  | cons c rest =>
    by_cases hd : isDigitC c = true
    · simp [digitsThenDot, List.takeWhile_cons, List.dropWhile_cons, hd,
        dotAfterDigits_iff]
    · simp only [Bool.not_eq_true] at hd
      simp [digitsThenDot, List.takeWhile_cons, List.dropWhile_cons, hd]

theorem stripGlyphMarker_of_no_match (l : List Char) (h : matchBulletGlyph l = false) :
    stripGlyphMarker l = l := by
  unfold matchBulletGlyph at h
  unfold stripGlyphMarker
  cases hl : lstripC l with
  | nil => rfl
  | cons c rest =>
    rw [hl] at h
    simp only [Bool.or_eq_false_iff, decide_eq_false_iff_not] at h
    simp [h.1.1, h.1.2, h.2]

theorem stripNumMarker_of_no_match (l : List Char) (h : matchBulletNum l = false) :
    stripNumMarker l = l := by
  unfold matchBulletNum at h
  unfold stripNumMarker
  cases hdrop : (lstripC l).dropWhile isDigitC with
  | nil => cases htake : (lstripC l).takeWhile isDigitC <;> rfl
  | cons c rest =>
    cases htake : (lstripC l).takeWhile isDigitC with
    | nil => rfl
    | cons d ds =>
      by_cases hc : c = '.'
      · exfalso
        subst hc
        have hdd : digitsThenDot (lstripC l) = true := by
          rw [digitsThenDot_iff]
          exact ⟨by simp [htake], by simp [hdrop]⟩
        rw [hdd] at h
        exact Bool.noConfusion h
      · simp [hc]

theorem stripLowerParenMarker_of_no_match (l : List Char)
    (h : matchBulletLowerParen l = false) : stripLowerParenMarker l = l := by
  unfold matchBulletLowerParen at h
  unfold stripLowerParenMarker
  cases hl : lstripC l with
  | nil => rfl
  | cons c rest =>
    cases rest with
    | nil => rfl
    | cons b bs =>
      rw [hl] at h
      simp only [Bool.and_eq_false_iff] at h
      rcases h with h | h
      · simp [h]
      · simp only [decide_eq_false_iff_not] at h
        simp [h]

theorem dropWhile_twice (p : Char → Bool) (l : List Char) :
    (l.dropWhile p).dropWhile p = l.dropWhile p := by
  induction l with
  | nil => rfl
  | cons c t ih =>
    by_cases hc : p c = true
    · simp [List.dropWhile_cons, hc, ih]
    · simp only [Bool.not_eq_true] at hc
      simp [List.dropWhile_cons, hc]

theorem dropWhile_head_false (p : Char → Bool) (l : List Char) (a : Char)
    (h : (l.dropWhile p).head? = some a) : p a = false := by
  induction l with
  | nil => simp at h
  | cons c t ih =>
    by_cases hc : p c = true
    · rw [List.dropWhile_cons, if_pos hc] at h
      exact ih h
    · simp only [Bool.not_eq_true] at hc
      rw [List.dropWhile_cons, if_neg (by simp [hc])] at h
      simp only [List.head?_cons, Option.some.injEq] at h
      rw [← h]
      exact hc

theorem getLast?_append_right (u v : List Char) (hv : v ≠ []) :
    (u ++ v).getLast? = v.getLast? := by
  rw [← List.head?_reverse, ← List.head?_reverse, List.reverse_append]
  cases hrv : v.reverse with
  | nil => exact absurd (by simpa using hrv) hv
  | cons a t => simp

theorem lstrip_head_false (l : List Char) (a : Char) (t : List Char)
    (h : lstripC l = a :: t) : pyIsSpace a = false :=
  dropWhile_head_false pyIsSpace l a (by rw [lstripC] at h; simp [h])

theorem lstrip_idem (l : List Char) : lstripC (lstripC l) = lstripC l :=
  dropWhile_twice pyIsSpace l

theorem lstrip_of_head_false (a : Char) (t : List Char) (h : pyIsSpace a = false) :
    lstripC (a :: t) = a :: t := by
  simp [lstripC, List.dropWhile_cons, h]

theorem rstrip_of_getLast_false (l : List Char) (a : Char)
    (hl : l.getLast? = some a) (h : pyIsSpace a = false) : rstripC l = l := by
  unfold rstripC
  rw [← List.head?_reverse] at hl
  cases hrev : l.reverse with
  | nil => simp [hrev] at hl
  | cons b t =>
    rw [hrev] at hl
    simp only [List.head?_cons, Option.some.injEq] at hl
    subst hl
    rw [List.dropWhile_cons, if_neg (by simp [h])]
    rw [← hrev, List.reverse_reverse]

theorem rstrip_getLast_false (l : List Char) (a : Char)
    (h : (rstripC l).getLast? = some a) : pyIsSpace a = false := by
  unfold rstripC at h
  rw [← List.head?_reverse, List.reverse_reverse] at h
  exact dropWhile_head_false pyIsSpace l.reverse a h

theorem lstrip_getLast (l : List Char) (h : lstripC l ≠ []) :
    (lstripC l).getLast? = l.getLast? := by
  conv_rhs => rw [← List.takeWhile_append_dropWhile (p := pyIsSpace) (l := l)]
  exact (getLast?_append_right _ _ h).symm

theorem strip_idem (l : List Char) : stripC (stripC l) = stripC l := by
  unfold stripC
  cases hs : lstripC (rstripC l) with
  | nil => rfl
  | cons a t =>
    have hy : rstripC l ≠ [] := by
      intro hz
      rw [hz] at hs
      simp [lstripC] at hs
    have hlast : (lstripC (rstripC l)).getLast? = (rstripC l).getLast? :=
      lstrip_getLast (rstripC l) (by simp [hs])
    obtain ⟨b, hb⟩ : ∃ b, (rstripC l).getLast? = some b := by
      cases hgl : (rstripC l).getLast? with
      | none => exact absurd (List.getLast?_eq_none_iff.mp hgl) hy
      | some b => exact ⟨b, rfl⟩
    have hbf : pyIsSpace b = false := rstrip_getLast_false l b hb
    have h1 : rstripC (a :: t) = a :: t := by
      apply rstrip_of_getLast_false (a :: t) b _ hbf
      rw [← hs, hlast, hb]
    rw [h1, ← hs, lstrip_idem]

theorem strip_concat_q (q : List Char) :
    stripC (stripC q ++ ['?']) = stripC q ++ ['?'] := by
  have h1 : rstripC (stripC q ++ ['?']) = stripC q ++ ['?'] :=
    rstrip_of_getLast_false _ '?' (List.getLast?_concat _) (by decide)
  show lstripC (rstripC (stripC q ++ ['?'])) = stripC q ++ ['?']
  rw [h1]
  cases hs : stripC q with
  | nil => rfl
  | cons a t =>
    have ha : pyIsSpace a = false := by
      unfold stripC at hs
      exact lstrip_head_false (rstripC q) a t hs
    simp only [List.cons_append]
    exact lstrip_of_head_false a (t ++ ['?']) ha

/-- The property claim C6 asserts of every fragment produced by splitting:
trimmed, and ending in `?`. -/
def goodFragment (q : List Char) : Prop :=
  stripC q = q ∧ q.getLast? = some '?'

theorem appendQ_preserves (r : List (List Char)) (q : List Char)
    (hr : ∀ x ∈ r, goodFragment x) : ∀ x ∈ appendQ r q, goodFragment x := by
  intro x hx
  unfold appendQ at hx
  by_cases h0 : stripC q = []
  · rw [if_pos h0] at hx
    exact hr x hx
  · rw [if_neg h0] at hx
    by_cases hq : (stripC q).getLast? = some '?'
    · rw [if_pos hq] at hx
      rcases List.mem_append.mp hx with hx | hx
      · exact hr x hx
      · rw [List.mem_singleton.mp hx]
        exact ⟨strip_idem q, hq⟩
    · rw [if_neg hq] at hx
      rcases List.mem_append.mp hx with hx | hx
      · exact hr x hx
      · rw [List.mem_singleton.mp hx]
        exact ⟨strip_concat_q q, List.getLast?_concat _⟩

theorem foldl_appendQ_good (qs : List (List Char)) :
    ∀ r, (∀ x ∈ r, goodFragment x) →
      ∀ x ∈ qs.foldl appendQ r, goodFragment x := by
  induction qs with
  | nil => intro r hr x hx; exact hr x hx
  | cons q t ih =>
    intro r hr x hx
    exact ih (appendQ r q) (appendQ_preserves r q hr) x hx

theorem pyInt_mono {a b : ℚ} (h : a ≤ b) : pyInt a ≤ pyInt b := by
  unfold pyInt
  by_cases ha : a < 0
  · by_cases hb : b < 0
    · rw [if_pos ha, if_pos hb]
      have : ⌊-b⌋ ≤ ⌊-a⌋ := Int.floor_le_floor (by linarith)
      omega
    · rw [if_pos ha, if_neg hb]
      push_neg at hb
      have h1 : (0:ℤ) ≤ ⌊-a⌋ := Int.floor_nonneg.mpr (by linarith)
      have h2 : (0:ℤ) ≤ ⌊b⌋ := Int.floor_nonneg.mpr hb
      omega
  · rw [if_neg ha, if_neg (by push_neg at ha ⊢; linarith)]
    exact Int.floor_le_floor h

/-- Greedy-wrap invariant: running the wrap loop with a smaller capacity from
a state that is "at least as far along" (more lines, or equal lines and at
least as long a current line) stays at least as far along. -/
theorem wrap_fold_invariant (cBig cSmall : ℤ) (hc : cSmall ≤ cBig) :
    ∀ (ws : List ℤ), (∀ wl ∈ ws, 0 ≤ wl) →
      ∀ (c l c' l' : ℤ), 0 ≤ c → 0 ≤ c' →
        (l < l' ∨ (l = l' ∧ c ≤ c')) →
        ((ws.foldl (wrapStep cBig) (c, l)).2 < (ws.foldl (wrapStep cSmall) (c', l')).2 ∨
          ((ws.foldl (wrapStep cBig) (c, l)).2 = (ws.foldl (wrapStep cSmall) (c', l')).2 ∧
            (ws.foldl (wrapStep cBig) (c, l)).1 ≤ (ws.foldl (wrapStep cSmall) (c', l')).1)) := by
  intro ws
  induction ws with
  | nil =>
    intro _ c l c' l' _ _ hinv
    simpa using hinv
  | cons wl rest ih =>
    intro hws c l c' l' hcn hcn' hinv
    have hwl : 0 ≤ wl := hws wl (by simp)
    have hrest : ∀ x ∈ rest, 0 ≤ x := fun x hx => hws x (by simp [hx])
    simp only [List.foldl_cons]
    unfold wrapStep
    by_cases hbig : c + wl > cBig
    · by_cases hsmall : c' + wl > cSmall
      · rw [if_pos hbig, if_pos hsmall]
        exact ih hrest wl (l + 1) wl (l' + 1) hwl hwl (by omega)
      · rw [if_pos hbig, if_neg hsmall]
        push_neg at hsmall
        have hl : l < l' := by
          rcases hinv with h | ⟨h1, h2⟩
          · exact h
          · exfalso; omega
        exact ih hrest wl (l + 1) (c' + wl) l' hwl (by omega) (by omega)
    · by_cases hsmall : c' + wl > cSmall
      · rw [if_neg hbig, if_pos hsmall]
        exact ih hrest (c + wl) l wl (l' + 1) (by omega) hwl (by omega)
      · rw [if_neg hbig, if_neg hsmall]
        exact ih hrest (c + wl) l (c' + wl) l' (by omega) (by omega) (by omega)

theorem linesNeededFor_mono (cBig cSmall : ℤ) (hc : cSmall ≤ cBig)
    (ws : List ℤ) (hws : ∀ wl ∈ ws, 0 ≤ wl) :
    linesNeededFor cBig ws ≤ linesNeededFor cSmall ws := by
  have h := wrap_fold_invariant cBig cSmall hc ws hws 0 1 0 1 le_rfl le_rfl
    (Or.inr ⟨rfl, le_rfl⟩)
  unfold linesNeededFor
  rcases h with h | ⟨h, _⟩
  · exact le_of_lt h
  · exact le_of_eq h

theorem wordLens_nonneg (text : List Char) : ∀ wl ∈ wordLens text, 0 ≤ wl := by
  intro wl hwl
  rcases List.mem_map.mp hwl with ⟨w, _, rfl⟩
  positivity

theorem div_antitone_pos {a b c : ℚ} (ha : 0 ≤ a) (hb : 0 < b) (hbc : b ≤ c) :
    a / c ≤ a / b := by
  rw [div_eq_mul_one_div a c, div_eq_mul_one_div a b]
  exact mul_le_mul_of_nonneg_left (one_div_le_one_div_of_le hb hbc) ha

theorem parseLine_slides_titled (st : PState) (raw : List Char)
    (h : ∀ r ∈ st.slides, r.title ≠ []) :
    ∀ r ∈ (parseLine st raw).slides, r.title ≠ [] := by
  intro r hr
  simp only [parseLine] at hr
  repeat' split at hr
  all_goals
    first
      | exact h r hr
      | (rcases List.mem_append.mp hr with hr2 | hr2
         · exact h r hr2
         · rw [List.mem_singleton.mp hr2]
           assumption)

theorem parse_foldl_titled (lines : List (List Char)) :
    ∀ st : PState, (∀ r ∈ st.slides, r.title ≠ []) →
      ∀ r ∈ (lines.foldl parseLine st).slides, r.title ≠ [] := by
  induction lines with
  | nil => intro st h; exact h
  | cons a t ih =>
    intro st h
    exact ih (parseLine st a) (parseLine_slides_titled st a h)

/-! ### Lemmas for the idempotence of the math normalizer

Every pattern the normalizer searches for (`^`+digit, `_`+digit, the table
keys) is pure ASCII, while every character it writes (superscript and
subscript digits, the symbol and Greek glyphs) is non-ASCII, and no
replacement ever maps a non-empty match to the empty string — so a pass can
never manufacture a new match, which is what the following lemmas prove. -/

theorem isPre_nil (s : List Char) : isPre [] s = true := by
  cases s <;> rfl

theorem containsSub_cons_false_iff (pat : List Char) (c : Char) (rest : List Char) :
    containsSub pat (c :: rest) = false ↔
      isPre pat (c :: rest) = false ∧ containsSub pat rest = false := by
  simp [containsSub]

theorem containsSub_tail_false (pat : List Char) (c : Char) (rest : List Char)
    (h : containsSub pat (c :: rest) = false) : containsSub pat rest = false :=
  ((containsSub_cons_false_iff pat c rest).mp h).2

theorem containsSub_drop_false (pat : List Char) (k : Nat) :
    ∀ s : List Char, containsSub pat s = false →
      containsSub pat (s.drop k) = false := by
  induction k with
  | zero => intro s h; simpa using h
  | succ k ih =>
    intro s h
    cases s with
    | nil => simpa using h
    | cons c rest =>
      rw [List.drop_succ_cons]
      exact ih rest (containsSub_tail_false pat c rest h)

theorem ascii_digit_enum (c : Char) (hd : isDigitC c = true)
    (ha : isAsciiC c = true) : asciiDigitC c = true := by
  simp only [isDigitC, Bool.or_eq_true] at hd
  rcases hd with hd | hd
  · exact hd
  · exfalso
    simp only [isAsciiC, decide_eq_true_eq] at ha
    simp only [ndExtraC, Bool.or_eq_true, Bool.and_eq_true,
      decide_eq_true_eq] at hd
    omega

/-- No occurrence of an ASCII-headed pattern can start inside a block of
non-ASCII characters. -/
theorem containsSub_front_block (o : Char) (os : List Char)
    (ho : isAsciiC o = true) :
    ∀ (u X : List Char), (∀ c ∈ u, isAsciiC c = false) →
      containsSub (o :: os) X = false →
      containsSub (o :: os) (u ++ X) = false := by
  intro u
  induction u with
  | nil => intro X _ hX; simpa using hX
  | cons a t ih =>
    intro X hu hX
    have ha : isAsciiC a = false := hu a (by simp)
    have hne : (o = a) = False := by
      by_contra hcon
      simp only [eq_iff_iff, iff_false] at hcon
      push_neg at hcon
      rw [hcon] at ho
      rw [ho] at ha
      exact Bool.noConfusion ha
    rw [List.cons_append, containsSub_cons_false_iff]
    constructor
    · simp [isPre, hne]
    · exact ih X (fun c hc => hu c (by simp [hc])) hX

/-- An all-ASCII prefix of a `replAll` output is a prefix of the input:
the only characters `replAll` adds are the (non-ASCII) replacement text. -/
theorem isPre_replAll (old new : List Char)
    (hnew1 : new ≠ []) (hnew : ∀ c ∈ new, isAsciiC c = false) :
    ∀ (n : Nat) (p t : List Char), t.length ≤ n →
      (∀ c ∈ p, isAsciiC c = true) →
      isPre p (replAll old new t) = true → isPre p t = true := by
  intro n
  induction n with
  | zero =>
    intro p t ht hp h
    cases t with
    | nil => exact h
    | cons c rest => simp at ht
  | succ n ih =>
    intro p t ht hp h
    cases t with
    | nil => exact h
    | cons c rest =>
      rw [replAll_cons] at h
      by_cases hg : (isPre old (c :: rest) && !old.isEmpty) = true
      · rw [if_pos hg] at h
        cases p with
        | nil => exact isPre_nil _
        | cons q qs =>
          exfalso
          cases hnew' : new with
          | nil => exact hnew1 hnew'
          | cons nh nt =>
            rw [hnew', List.cons_append] at h
            simp only [isPre, Bool.and_eq_true, decide_eq_true_eq] at h
            have h1 : isAsciiC q = true := hp q (by simp)
            rw [h.1] at h1
            have h2 : isAsciiC nh = false := hnew nh (by simp [hnew'])
            rw [h1] at h2
            exact Bool.noConfusion h2
      · rw [if_neg hg] at h
        cases p with
        | nil => exact isPre_nil _
        | cons q qs =>
          simp only [isPre, Bool.and_eq_true, decide_eq_true_eq] at h ⊢
          refine ⟨h.1, ?_⟩
          exact ih qs rest (by simp at ht; omega)
            (fun x hx => hp x (by simp [hx])) h.2

/-- `replAll old new` output contains no occurrence of `old` (for ASCII
`old`, non-empty non-ASCII `new`). -/
theorem containsSub_replAll_self (old new : List Char)
    (hold1 : old ≠ []) (hold : ∀ c ∈ old, isAsciiC c = true)
    (hnew1 : new ≠ []) (hnew : ∀ c ∈ new, isAsciiC c = false) :
    ∀ (n : Nat) (s : List Char), s.length ≤ n →
      containsSub old (replAll old new s) = false := by
  intro n
  induction n with
  | zero =>
    intro s hs
    cases s with
    | nil =>
      rw [replAll_nil]
      simpa [containsSub] using hold1
    | cons c rest => simp at hs
  | succ n ih =>
    intro s hs
    cases s with
    | nil =>
      rw [replAll_nil]
      simpa [containsSub] using hold1
    | cons c rest =>
      rw [replAll_cons]
      by_cases hg : (isPre old (c :: rest) && !old.isEmpty) = true
      · rw [if_pos hg]
        cases hold' : old with
        | nil => exact absurd hold' hold1
        | cons o os =>
          rw [← hold']
          have hdrop : (rest.drop (old.length - 1)).length ≤ n := by
            have := List.length_drop (old.length - 1) rest
            simp at hs
            omega
          rw [hold']
          apply containsSub_front_block o os
            (hold o (by simp [hold'])) new _ (fun c hc => hnew c hc)
          rw [← hold']
          exact ih _ hdrop
      · rw [if_neg hg]
        rw [containsSub_cons_false_iff]
        have hrest : rest.length ≤ n := by simp at hs; omega
        refine ⟨?_, ih rest hrest⟩
        by_contra hcon
        simp only [Bool.not_eq_false] at hcon
        cases hold' : old with
        | nil => exact absurd hold' hold1
        | cons o os =>
          rw [hold'] at hcon
          simp only [isPre, Bool.and_eq_true, decide_eq_true_eq] at hcon
          have hos : isPre os rest = true :=
            isPre_replAll (o :: os) new hnew1 hnew n os rest hrest
              (fun x hx => hold x (by simp [hold', hx])) hcon.2
          have hthis : isPre old (c :: rest) = true := by
            rw [hold']
            simp [isPre, hcon.1, hos]
          have hoe : old.isEmpty = false := by rw [hold']; rfl
          rw [hthis, hoe] at hg
          exact hg rfl

/-- `replAll old new` preserves the absence of any other non-empty ASCII
pattern. -/
theorem containsSub_replAll_pres (pat old new : List Char)
    (hpat1 : pat ≠ []) (hpat : ∀ c ∈ pat, isAsciiC c = true)
    (hnew1 : new ≠ []) (hnew : ∀ c ∈ new, isAsciiC c = false) :
    ∀ (n : Nat) (s : List Char), s.length ≤ n →
      containsSub pat s = false →
      containsSub pat (replAll old new s) = false := by
  intro n
  induction n with
  | zero =>
    intro s hs h
    cases s with
    | nil => rw [replAll_nil]; exact h
    | cons c rest => simp at hs
  | succ n ih =>
    intro s hs h
    cases s with
    | nil => rw [replAll_nil]; exact h
    | cons c rest =>
      have hrestlen : rest.length ≤ n := by simp at hs; omega
      have hrest : containsSub pat rest = false := containsSub_tail_false pat c rest h
      rw [replAll_cons]
      by_cases hg : (isPre old (c :: rest) && !old.isEmpty) = true
      · rw [if_pos hg]
        have hdroplen : (rest.drop (old.length - 1)).length ≤ n := by
          have := List.length_drop (old.length - 1) rest
          simp at hs
          omega
        have hdrop : containsSub pat (rest.drop (old.length - 1)) = false :=
          containsSub_drop_false pat _ rest hrest
        cases hpat' : pat with
        | nil => exact absurd hpat' hpat1
        | cons q qs =>
          rw [← hpat']
          apply hpat' ▸ containsSub_front_block q qs
            (hpat q (by simp [hpat'])) new _ (fun x hx => hnew x hx)
          exact hpat' ▸ ih _ hdroplen hdrop
      · rw [if_neg hg]
        rw [containsSub_cons_false_iff]
        refine ⟨?_, ih rest hrestlen hrest⟩
        by_contra hcon
        simp only [Bool.not_eq_false] at hcon
        cases hpat' : pat with
        | nil => exact absurd hpat' hpat1
        | cons q qs =>
          rw [hpat'] at hcon
          simp only [isPre, Bool.and_eq_true, decide_eq_true_eq] at hcon
          have hqs : isPre qs rest = true :=
            isPre_replAll old new hnew1 hnew n qs rest hrestlen
              (fun x hx => hpat x (by simp [hpat', hx])) hcon.2
          have hfull : containsSub pat (c :: rest) = true := by
            rw [hpat']
            simp [containsSub, isPre, hcon.1, hqs]
          rw [hfull] at h
          exact Bool.noConfusion h

/-- `replAll` is the identity on a string free of the pattern. -/
theorem replAll_id_of_free (old new : List Char) :
    ∀ (n : Nat) (s : List Char), s.length ≤ n →
      containsSub old s = false → replAll old new s = s := by
  intro n
  induction n with
  | zero =>
    intro s hs h
    cases s with
    | nil => exact replAll_nil old new
    | cons c rest => simp at hs
  | succ n ih =>
    intro s hs h
    cases s with
    | nil => exact replAll_nil old new
    | cons c rest =>
      rw [replAll_cons]
      have hpre : isPre old (c :: rest) = false := by
        by_contra hcon
        simp only [Bool.not_eq_false] at hcon
        have : containsSub old (c :: rest) = true := by
          simp [containsSub, hcon]
        rw [this] at h
        exact Bool.noConfusion h
      rw [if_neg (by simp [hpre])]
      rw [ih rest (by simp at hs; omega) (containsSub_tail_false old c rest h)]

theorem pairSub_head (mk : Char) (f : Char → Char) (b : Char) (r : List Char) :
    (pairSub mk f (b :: r)).head? = some b ∨
      ∃ c, isDigitC c = true ∧ (pairSub mk f (b :: r)).head? = some (f c) := by
  cases r with
  | nil => left; rfl
  | cons c t =>
    by_cases hg : (b = mk && isDigitC c) = true
    · right
      refine ⟨c, ?_, ?_⟩
      · simp only [Bool.and_eq_true] at hg
        exact hg.2
      · simp [pairSub, hg]
    · left
      simp [pairSub, hg]

/-- An all-ASCII prefix of a `pairSub` output is a prefix of the input. -/
theorem isPre_pairSub (mk : Char) (f : Char → Char)
    (hf : ∀ d, isDigitC d = true → isAsciiC (f d) = false) :
    ∀ (n : Nat) (p t : List Char), t.length ≤ n →
      (∀ c ∈ p, isAsciiC c = true) →
      isPre p (pairSub mk f t) = true → isPre p t = true := by
  intro n
  induction n with
  | zero =>
    intro p t ht hp h
    cases t with
    | nil => exact h
    | cons a r => simp at ht
  | succ n ih =>
    intro p t ht hp h
    rcases t with _ | ⟨a, _ | ⟨b, t'⟩⟩
    · exact h
    · exact h
    · by_cases hg : (a = mk && isDigitC b) = true
      · rw [show pairSub mk f (a :: b :: t') = f b :: pairSub mk f t' by
          simp [pairSub, hg]] at h
        cases p with
        | nil => exact isPre_nil _
        | cons q qs =>
          exfalso
          simp only [isPre, Bool.and_eq_true, decide_eq_true_eq] at h
          have h1 : isAsciiC q = true := hp q (by simp)
          have h2 : isAsciiC (f b) = false := by
            simp only [Bool.and_eq_true] at hg
            exact hf b hg.2
          rw [h.1, h2] at h1
          exact Bool.noConfusion h1
      · rw [show pairSub mk f (a :: b :: t') = a :: pairSub mk f (b :: t') by
          simp [pairSub, hg]] at h
        cases p with
        | nil => exact isPre_nil _
        | cons q qs =>
          simp only [isPre, Bool.and_eq_true, decide_eq_true_eq] at h ⊢
          refine ⟨h.1, ?_⟩
          exact ih qs (b :: t') (by simp at ht ⊢; omega)
            (fun x hx => hp x (by simp [hx])) h.2

/-- The output of `pairSub mk f` contains no marker-digit pair. -/
theorem containsSub_pairSub_self (mk : Char) (f : Char → Char)
    (hmk : isAsciiC mk = true)
    (hf : ∀ d, isDigitC d = true → isAsciiC (f d) = false) :
    ∀ (n : Nat) (t : List Char), t.length ≤ n →
      ∀ d, isDigitC d = true → isAsciiC d = true →
        containsSub [mk, d] (pairSub mk f t) = false := by
  intro n
  induction n with
  | zero =>
    intro t ht d hd hda
    cases t with
    | nil => simp [pairSub, containsSub]
    | cons a r => simp at ht
  | succ n ih =>
    intro t ht d hd hda
    rcases t with _ | ⟨a, _ | ⟨b, t'⟩⟩
    · simp [pairSub, containsSub]
    · simp [pairSub, containsSub, isPre]
    · by_cases hg : (a = mk && isDigitC b) = true
      · rw [show pairSub mk f (a :: b :: t') = f b :: pairSub mk f t' by
          simp [pairSub, hg]]
        rw [containsSub_cons_false_iff]
        constructor
        · have h2 : isAsciiC (f b) = false := by
            simp only [Bool.and_eq_true] at hg
            exact hf b hg.2
          have hne : (mk = f b) = False := by
            by_contra hcon
            simp only [eq_iff_iff, iff_false] at hcon
            push_neg at hcon
            rw [← hcon] at h2
            rw [hmk] at h2
            exact Bool.noConfusion h2
          simp [isPre, hne]
        · exact ih t' (by simp at ht; omega) d hd hda
      · rw [show pairSub mk f (a :: b :: t') = a :: pairSub mk f (b :: t') by
          simp [pairSub, hg]]
        rw [containsSub_cons_false_iff]
        refine ⟨?_, ih (b :: t') (by simp at ht ⊢; omega) d hd hda⟩
        by_cases hma : mk = a
        · have hnb : isDigitC b = false := by
            cases hdb : isDigitC b
            · rfl
            · exfalso
              apply hg
              simp [← hma, hdb]
          cases hz : pairSub mk f (b :: t') with
          | nil => simp [isPre, hz]
          | cons z zs =>
            have hzd : (d = z) = False := by
              rcases pairSub_head mk f b t' with hh | ⟨c, hc, hh⟩
              · rw [hz] at hh
                simp only [List.head?_cons, Option.some.injEq] at hh
                by_contra hcon
                simp only [eq_iff_iff, iff_false] at hcon
                push_neg at hcon
                rw [hcon] at hd
                rw [hh] at hd
                rw [hd] at hnb
                exact Bool.noConfusion hnb
              · rw [hz] at hh
                simp only [List.head?_cons, Option.some.injEq] at hh
                by_contra hcon
                simp only [eq_iff_iff, iff_false] at hcon
                push_neg at hcon
                have hda2 : isAsciiC d = true := hda
                have hfc : isAsciiC (f c) = false := hf c hc
                rw [hcon, hh] at hda2
                rw [hda2] at hfc
                exact Bool.noConfusion hfc
            simp [isPre, hzd]
        · have hne : (mk = a) = False := by simp [hma]
          simp [isPre, hne]

/-- `pairSub mk f` preserves the absence of any non-empty ASCII pattern. -/
theorem containsSub_pairSub_pres (mk : Char) (f : Char → Char)
    (hf : ∀ d, isDigitC d = true → isAsciiC (f d) = false) :
    ∀ (n : Nat) (pat t : List Char), t.length ≤ n →
      pat ≠ [] → (∀ c ∈ pat, isAsciiC c = true) →
      containsSub pat t = false →
      containsSub pat (pairSub mk f t) = false := by
  intro n
  induction n with
  | zero =>
    intro pat t ht hpat1 hpat h
    cases t with
    | nil => simpa [pairSub, containsSub] using hpat1
    | cons a r => simp at ht
  | succ n ih =>
    intro pat t ht hpat1 hpat h
    rcases t with _ | ⟨a, _ | ⟨b, t'⟩⟩
    · simpa [pairSub, containsSub] using hpat1
    · exact h
    · by_cases hg : (a = mk && isDigitC b) = true
      · rw [show pairSub mk f (a :: b :: t') = f b :: pairSub mk f t' by
          simp [pairSub, hg]]
        rw [containsSub_cons_false_iff]
        constructor
        · cases hpat' : pat with
          | nil => exact absurd hpat' hpat1
          | cons q qs =>
            have h1 : isAsciiC q = true := hpat q (by simp [hpat'])
            have h2 : isAsciiC (f b) = false := by
              simp only [Bool.and_eq_true] at hg
              exact hf b hg.2
            have hne : (q = f b) = False := by
              by_contra hcon
              simp only [eq_iff_iff, iff_false] at hcon
              push_neg at hcon
              rw [hcon, h2] at h1
              exact Bool.noConfusion h1
            simp [isPre, hne]
        · exact ih pat t' (by simp at ht; omega) hpat1 hpat
            (containsSub_tail_false pat b t'
              (containsSub_tail_false pat a (b :: t') h))
      · rw [show pairSub mk f (a :: b :: t') = a :: pairSub mk f (b :: t') by
          simp [pairSub, hg]]
        rw [containsSub_cons_false_iff]
        refine ⟨?_, ih pat (b :: t') (by simp at ht ⊢; omega) hpat1 hpat
          (containsSub_tail_false pat a (b :: t') h)⟩
        by_contra hcon
        simp only [Bool.not_eq_false] at hcon
        cases hpat' : pat with
        | nil => exact absurd hpat' hpat1
        | cons q qs =>
          rw [hpat'] at hcon
          simp only [isPre, Bool.and_eq_true, decide_eq_true_eq] at hcon
          have hqs : isPre qs (b :: t') = true :=
            isPre_pairSub mk f hf n qs (b :: t') (by simp at ht ⊢; omega)
              (fun x hx => hpat x (by simp [hpat', hx])) hcon.2
          have hfull : containsSub pat (a :: b :: t') = true := by
            rw [hpat']
            simp [containsSub, isPre, hcon.1, hqs]
          rw [hfull] at h
          exact Bool.noConfusion h

/-- `pairSub` is the identity on a string free of every marker-digit pair. -/
theorem pairSub_id_of_free (mk : Char) (f : Char → Char) :
    ∀ (n : Nat) (t : List Char), t.length ≤ n →
      (∀ d, isDigitC d = true → containsSub [mk, d] t = false) →
      pairSub mk f t = t := by
  intro n
  induction n with
  | zero =>
    intro t ht h
    cases t with
    | nil => rfl
    | cons a r => simp at ht
  | succ n ih =>
    intro t ht h
    rcases t with _ | ⟨a, _ | ⟨b, t'⟩⟩
    · rfl
    · rfl
    · by_cases hg : (a = mk && isDigitC b) = true
      · exfalso
        simp only [Bool.and_eq_true, decide_eq_true_eq] at hg
        have hpre : isPre [mk, b] (a :: b :: t') = true := by
          simp [isPre, hg.1.symm, isPre_nil]
        have : containsSub [mk, b] (a :: b :: t') = true := by
          simp [containsSub, hpre]
        rw [h b hg.2] at this
        exact Bool.noConfusion this
      · rw [show pairSub mk f (a :: b :: t') = a :: pairSub mk f (b :: t') by
          simp [pairSub, hg]]
        rw [ih (b :: t') (by simp at ht ⊢; omega)
          (fun d hd => containsSub_tail_false [mk, d] a (b :: t') (h d hd))]

/-- The side conditions the idempotence argument needs of a replacement
table: non-empty all-ASCII keys, non-empty all-non-ASCII values. -/
def tblOK (tbl : List (List Char × List Char)) : Prop :=
  ∀ p ∈ tbl, p.1 ≠ [] ∧ (∀ c ∈ p.1, isAsciiC c = true) ∧
    p.2 ≠ [] ∧ (∀ c ∈ p.2, isAsciiC c = false)

theorem mathTable_ok : tblOK mathTable := by
  unfold tblOK
  decide

theorem applyTable_cons (hd : List Char × List Char)
    (tl : List (List Char × List Char)) (s : List Char) :
    applyTable (hd :: tl) s = applyTable tl (replAll hd.1 hd.2 s) := rfl

theorem containsSub_applyTable_pres (pat : List Char)
    (hpat1 : pat ≠ []) (hpat : ∀ c ∈ pat, isAsciiC c = true) :
    ∀ (tbl : List (List Char × List Char)) (s : List Char), tblOK tbl →
      containsSub pat s = false →
      containsSub pat (applyTable tbl s) = false := by
  intro tbl
  induction tbl with
  | nil => intro s _ h; exact h
  | cons hd tl ih =>
    intro s htbl h
    obtain ⟨_, _, hv1, hv⟩ := htbl hd (by simp)
    rw [applyTable_cons]
    exact ih _ (fun p hp => htbl p (by simp [hp]))
      (containsSub_replAll_pres pat hd.1 hd.2 hpat1 hpat hv1 hv
        s.length s le_rfl h)

theorem containsSub_applyTable_self :
    ∀ (tbl : List (List Char × List Char)) (s : List Char), tblOK tbl →
      ∀ p ∈ tbl, containsSub p.1 (applyTable tbl s) = false := by
  intro tbl
  induction tbl with
  | nil => intro s _ p hp; simp at hp
  | cons hd tl ih =>
    intro s htbl p hp
    have htl : tblOK tl := fun q hq => htbl q (by simp [hq])
    rw [applyTable_cons]
    rcases List.mem_cons.mp hp with rfl | hp'
    · obtain ⟨hk1, hk, hv1, hv⟩ := htbl p (by simp)
      exact containsSub_applyTable_pres p.1 hk1 hk tl _ htl
        (containsSub_replAll_self p.1 p.2 hk1 hk hv1 hv s.length s le_rfl)
    · exact ih _ htl p hp'

theorem applyTable_id_of_free :
    ∀ (tbl : List (List Char × List Char)) (s : List Char),
      (∀ p ∈ tbl, containsSub p.1 s = false) → applyTable tbl s = s := by
  intro tbl
  induction tbl with
  | nil => intro s _; rfl
  | cons hd tl ih =>
    intro s h
    rw [applyTable_cons,
      replAll_id_of_free hd.1 hd.2 s.length s le_rfl (h hd (by simp))]
    exact ih s (fun p hp => h p (by simp [hp]))

theorem supMap_foreign (c : Char) (hc : isAsciiC c = false) : supMap c = c := by
  have hne : ∀ x : Char, isAsciiC x = true → ¬c = x := by
    intro x hx he
    rw [he, hx] at hc
    exact Bool.noConfusion hc
  simp [supMap, hne '0' (by decide), hne '1' (by decide), hne '2' (by decide),
    hne '3' (by decide), hne '4' (by decide), hne '5' (by decide),
    hne '6' (by decide), hne '7' (by decide), hne '8' (by decide),
    hne '9' (by decide)]

theorem subMap_foreign (c : Char) (hc : isAsciiC c = false) : subMap c = c := by
  have hne : ∀ x : Char, isAsciiC x = true → ¬c = x := by
    intro x hx he
    rw [he, hx] at hc
    exact Bool.noConfusion hc
  simp [subMap, hne '0' (by decide), hne '1' (by decide), hne '2' (by decide),
    hne '3' (by decide), hne '4' (by decide), hne '5' (by decide),
    hne '6' (by decide), hne '7' (by decide), hne '8' (by decide),
    hne '9' (by decide)]

theorem supMap_nonascii : ∀ d, isDigitC d = true → isAsciiC (supMap d) = false := by
  intro d hd
  cases ha : isAsciiC d with
  | true =>
    have h10 := ascii_digit_enum d hd ha
    simp only [asciiDigitC, Bool.or_eq_true, decide_eq_true_eq] at h10
    rcases h10 with ((((((((h | h) | h) | h) | h) | h) | h) | h) | h) | h <;>
      subst h <;> decide
  | false =>
    rw [supMap_foreign d ha]
    exact ha

theorem subMap_nonascii : ∀ d, isDigitC d = true → isAsciiC (subMap d) = false := by
  intro d hd
  cases ha : isAsciiC d with
  | true =>
    have h10 := ascii_digit_enum d hd ha
    simp only [asciiDigitC, Bool.or_eq_true, decide_eq_true_eq] at h10
    rcases h10 with ((((((((h | h) | h) | h) | h) | h) | h) | h) | h) | h <;>
      subst h <;> decide
  | false =>
    rw [subMap_foreign d ha]
    exact ha

theorem caretPat_ascii (d : Char) (hd : isAsciiC d = true) :
    ∀ c ∈ (['^', d] : List Char), isAsciiC c = true := by
  intro c hc
  rcases List.mem_cons.mp hc with rfl | hc
  · decide
  · rw [List.mem_singleton.mp hc]
    exact hd

theorem underscorePat_ascii (d : Char) (hd : isAsciiC d = true) :
    ∀ c ∈ (['_', d] : List Char), isAsciiC c = true := by
  intro c hc
  rcases List.mem_cons.mp hc with rfl | hc
  · decide
  · rw [List.mem_singleton.mp hc]
    exact hd

/-- The output of `process_math` is free of every pattern whose digit is
ASCII: no caret- or underscore-ASCII-digit pair, and no replacement-table
key.  (For a *non-ASCII* decimal digit the claim would be false — the
dictionary fallback can leave a fresh marker-digit pair behind; see the C10
counterexample.) -/
theorem processMath_free (s : List Char) :
    (∀ d, isDigitC d = true → isAsciiC d = true →
        containsSub ['^', d] (processMath s) = false) ∧
      (∀ d, isDigitC d = true → isAsciiC d = true →
        containsSub ['_', d] (processMath s) = false) ∧
      ∀ p ∈ mathTable, containsSub p.1 (processMath s) = false := by
  unfold processMath supSub subSub
  refine ⟨?_, ?_, ?_⟩
  · intro d hd hda
    apply containsSub_applyTable_pres ['^', d] (by simp) (caretPat_ascii d hda)
      mathTable _ mathTable_ok
    apply containsSub_pairSub_pres '_' subMap subMap_nonascii
      (pairSub '^' supMap s).length ['^', d] (pairSub '^' supMap s) le_rfl
      (by simp) (caretPat_ascii d hda)
    exact containsSub_pairSub_self '^' supMap (by decide) supMap_nonascii
      s.length s le_rfl d hd hda
  · intro d hd hda
    apply containsSub_applyTable_pres ['_', d] (by simp) (underscorePat_ascii d hda)
      mathTable _ mathTable_ok
    exact containsSub_pairSub_self '_' subMap (by decide) subMap_nonascii
      (pairSub '^' supMap s).length _ le_rfl d hd hda
  · exact containsSub_applyTable_self mathTable _ mathTable_ok

/-- `process_math` is the identity on pattern-free strings. -/
theorem processMath_id_of_free (t : List Char)
    (h1 : ∀ d, isDigitC d = true → containsSub ['^', d] t = false)
    (h2 : ∀ d, isDigitC d = true → containsSub ['_', d] t = false)
    (h3 : ∀ p ∈ mathTable, containsSub p.1 t = false) :
    processMath t = t := by
  unfold processMath supSub subSub
  rw [pairSub_id_of_free '^' supMap t.length t le_rfl h1,
    pairSub_id_of_free '_' subMap t.length t le_rfl h2]
  exact applyTable_id_of_free mathTable t h3

/-- A pattern occurrence `[mk, d]` puts the digit itself in the string. -/
theorem containsSub_pair_mem (mk d : Char) :
    ∀ t : List Char, containsSub [mk, d] t = true → d ∈ t := by
  intro t
  induction t with
  | nil => intro h; simp [containsSub] at h
  | cons c rest ih =>
    intro h
    simp only [containsSub, Bool.or_eq_true] at h
    rcases h with h | h
    · cases rest with
      | nil => simp [isPre] at h
      | cons b bs =>
        simp only [isPre, Bool.and_eq_true, decide_eq_true_eq] at h
        rw [h.2.1]
        simp
    · exact List.mem_cons_of_mem c (ih h)

/-- Every character of a `pairSub` output is an input character or the image
of an input digit under `f`. -/
theorem mem_pairSub (mk : Char) (f : Char → Char) :
    ∀ (n : Nat) (t : List Char), t.length ≤ n → ∀ ch ∈ pairSub mk f t,
      ch ∈ t ∨ ∃ b, b ∈ t ∧ isDigitC b = true ∧ ch = f b := by
  intro n
  induction n with
  | zero =>
    intro t ht ch hch
    cases t with
    | nil => simp [pairSub] at hch
    | cons a r => simp at ht
  | succ n ih =>
    intro t ht ch hch
    rcases t with _ | ⟨a, _ | ⟨b, t'⟩⟩
    · simp [pairSub] at hch
    · left; exact hch
    · by_cases hg : (a = mk && isDigitC b) = true
      · rw [show pairSub mk f (a :: b :: t') = f b :: pairSub mk f t' by
          simp [pairSub, hg]] at hch
        rcases List.mem_cons.mp hch with rfl | hch
        · right
          exact ⟨b, by simp, (Bool.and_eq_true _ _ |>.mp hg).2, rfl⟩
        · rcases ih t' (by simp at ht; omega) ch hch with h | ⟨b', hb', hd', he'⟩
          · left; simp [h]
          · right; exact ⟨b', by simp [hb'], hd', he'⟩
      · rw [show pairSub mk f (a :: b :: t') = a :: pairSub mk f (b :: t') by
          simp [pairSub, hg]] at hch
        rcases List.mem_cons.mp hch with rfl | hch
        · left; simp
        · rcases ih (b :: t') (by simp at ht ⊢; omega) ch hch with h | ⟨b', hb', hd', he'⟩
          · left; simp [h]
          · right; exact ⟨b', by simp [hb'], hd', he'⟩

/-- Every character of a `replAll` output is an input character or a
character of the replacement text. -/
theorem mem_replAll (old new : List Char) :
    ∀ (n : Nat) (t : List Char), t.length ≤ n → ∀ ch ∈ replAll old new t,
      ch ∈ t ∨ ch ∈ new := by
  intro n
  induction n with
  | zero =>
    intro t ht ch hch
    cases t with
    | nil => rw [replAll_nil] at hch; simp at hch
    | cons a r => simp at ht
  | succ n ih =>
    intro t ht ch hch
    cases t with
    | nil => rw [replAll_nil] at hch; simp at hch
    | cons c rest =>
      rw [replAll_cons] at hch
      by_cases hg : (isPre old (c :: rest) && !old.isEmpty) = true
      · rw [if_pos hg] at hch
        rcases List.mem_append.mp hch with hch | hch
        · right; exact hch
        · have hlen : (rest.drop (old.length - 1)).length ≤ n := by
            have := List.length_drop (old.length - 1) rest
            simp at ht
            omega
          rcases ih _ hlen ch hch with h | h
          · left
            exact List.mem_cons_of_mem c (List.drop_subset _ rest h)
          · right; exact h
      · rw [if_neg hg] at hch
        rcases List.mem_cons.mp hch with rfl | hch
        · left; simp
        · rcases ih rest (by simp at ht; omega) ch hch with h | h
          · left; simp [h]
          · right; exact h

/-- Every decimal digit occurring in the string is ASCII. -/
def noForeignDigits (t : List Char) : Prop :=
  ∀ ch ∈ t, isDigitC ch = true → isAsciiC ch = true

theorem noForeign_pairSub (mk : Char) (f : Char → Char)
    (hfd : ∀ b, isDigitC b = true → isAsciiC b = true → isDigitC (f b) = false) :
    ∀ t, noForeignDigits t → noForeignDigits (pairSub mk f t) := by
  intro t ht ch hch hd
  rcases mem_pairSub mk f t.length t le_rfl ch hch with h | ⟨b, hb, hbd, rfl⟩
  · exact ht ch h hd
  · exfalso
    rw [hfd b hbd (ht b hb hbd)] at hd
    exact Bool.noConfusion hd

theorem noForeign_replAll (old new : List Char)
    (hnd : ∀ ch ∈ new, isDigitC ch = false) :
    ∀ t, noForeignDigits t → noForeignDigits (replAll old new t) := by
  intro t ht ch hch hd
  rcases mem_replAll old new t.length t le_rfl ch hch with h | h
  · exact ht ch h hd
  · exfalso
    rw [hnd ch h] at hd
    exact Bool.noConfusion hd

theorem noForeign_applyTable :
    ∀ (tbl : List (List Char × List Char)),
      (∀ p ∈ tbl, ∀ ch ∈ p.2, isDigitC ch = false) →
      ∀ t, noForeignDigits t → noForeignDigits (applyTable tbl t) := by
  intro tbl
  induction tbl with
  | nil => intro _ t ht; exact ht
  | cons hd tl ih =>
    intro hv t ht
    rw [applyTable_cons]
    exact ih (fun p hp => hv p (by simp [hp])) _
      (noForeign_replAll hd.1 hd.2 (hv hd (by simp)) t ht)

theorem mathTable_vals_nondigit :
    ∀ p ∈ mathTable, ∀ ch ∈ p.2, isDigitC ch = false := by decide

theorem supMap_digit_nondigit :
    ∀ b, isDigitC b = true → isAsciiC b = true → isDigitC (supMap b) = false := by
  intro b hb ha
  have h10 := ascii_digit_enum b hb ha
  simp only [asciiDigitC, Bool.or_eq_true, decide_eq_true_eq] at h10
  rcases h10 with ((((((((h | h) | h) | h) | h) | h) | h) | h) | h) | h <;>
    subst h <;> decide

theorem subMap_digit_nondigit :
    ∀ b, isDigitC b = true → isAsciiC b = true → isDigitC (subMap b) = false := by
  intro b hb ha
  have h10 := ascii_digit_enum b hb ha
  simp only [asciiDigitC, Bool.or_eq_true, decide_eq_true_eq] at h10
  rcases h10 with ((((((((h | h) | h) | h) | h) | h) | h) | h) | h) | h <;>
    subst h <;> decide

/-- When every digit of `t` is ASCII, freeness for ASCII-digit patterns
gives freeness for all digit patterns: a non-ASCII digit cannot occur in the
pattern position because it does not occur in `t` at all. -/
theorem free_all_digits (mk : Char) (t : List Char)
    (hA : ∀ d, isDigitC d = true → isAsciiC d = true →
      containsSub [mk, d] t = false)
    (hC : noForeignDigits t) :
    ∀ d, isDigitC d = true → containsSub [mk, d] t = false := by
  intro d hd
  cases hda : isAsciiC d with
  | true => exact hA d hd hda
  | false =>
    cases hocc : containsSub [mk, d] t with
    | false => rfl
    | true =>
      exfalso
      rw [hC d (containsSub_pair_mem mk d t hocc) hd] at hda
      exact Bool.noConfusion hda

/-- For an all-ASCII input, the output of `process_math` contains no
non-ASCII decimal digit: the input has none and every glyph the three passes
insert (superscripts, subscripts, symbols, Greek letters) is not a decimal
digit. -/
theorem processMath_noForeign (s : List Char)
    (hs : ∀ ch ∈ s, isAsciiC ch = true) :
    noForeignDigits (processMath s) := by
  unfold processMath supSub subSub
  apply noForeign_applyTable mathTable mathTable_vals_nondigit
  apply noForeign_pairSub '_' subMap subMap_digit_nondigit
  apply noForeign_pairSub '^' supMap supMap_digit_nondigit
  intro ch hch _
  exact hs ch hch

/-! ## Claims -/

/-- C10, counterexample: Python `\d` also matches non-ASCII decimal digits
such as `'٢'` (U+0662), for which `superscripts.get(d, d)` falls back to the
digit itself, so the substitution deletes the caret.  On `"^^٢"` the first
pass finds no match at position 0 (`^` is not a digit) and rewrites the
`^٢` at position 1 to `٢`, producing `"^٢"` — which a second pass rewrites
to `"٢"`.  The normalizer is therefore not idempotent. -/
theorem c10_foreign_digit_counterexample :
    processMath (str "^^٢") = str "^٢" ∧
      processMath (processMath (str "^^٢")) = str "٢" ∧
      processMath (processMath (str "^^٢")) ≠ processMath (str "^^٢") := by
  exact ⟨by decide, by decide, by decide⟩

/-- C10 (amended): the math normalizer is idempotent on every string of
ASCII characters: there a first pass eliminates every caret-digit pair,
underscore-digit pair, and replacement-table key, every replacement output
(superscript/subscript digits, symbol and Greek glyphs — all non-ASCII,
never empty, and none a decimal digit) can recreate no match of any
pattern, and no non-ASCII digit is present for the dictionary fallback to
mishandle, so a second pass changes nothing. -/
theorem c10_process_math_idempotent_on_ascii :
    ∀ s : List Char, (∀ ch ∈ s, isAsciiC ch = true) →
      processMath (processMath s) = processMath s := by
  intro s hs
  obtain ⟨h1, h2, h3⟩ := processMath_free s
  have hC := processMath_noForeign s hs
  exact processMath_id_of_free (processMath s)
    (free_all_digits '^' (processMath s) h1 hC)
    (free_all_digits '_' (processMath s) h2 hC)
    h3

/-- C10, witness: idempotence exercised on the concrete ASCII input
`"x^2 <= pi"`. -/
theorem c10_process_math_idempotent_on_ascii_witness :
    processMath (processMath (str "x^2 <= pi")) = processMath (str "x^2 <= pi") :=
  c10_process_math_idempotent_on_ascii (str "x^2 <= pi") (by decide)

/-- C1, counterexample: `Slide 1` is never followed by a `Title:` line, so
per the claim the `Content: x` it accumulated must not appear in any emitted
SlideRecord; but the source resets the accumulator only when a record is
emitted, so the content carries over and appears in Slide 2's record. -/
theorem c1_carryover_counterexample :
    parseContentFile
        [str "Slide 1", str "Content: x", str "Slide 2", str "Title: T"] =
      [{ emptyRecord with
          title := str "T"
          content := [str "x"] }] ∧
      ∃ r ∈ parseContentFile
          [str "Slide 1", str "Content: x", str "Slide 2", str "Title: T"],
        str "x" ∈ r.content := by
  exact ⟨by decide, by decide⟩

/-- C1 (amended): a SlideRecord is emitted exactly at those `Slide ` lines
and at end of file where the in-progress record's title is non-empty (so
every emitted record has a non-empty title and a titleless occurrence of
`Slide` contributes no record of its own); however, when the title is empty
nothing is reset, so the regions a titleless occurrence accumulated carry
over into the next emitted SlideRecord rather than being discarded.  The
first conjunct is the universal title invariant; the second shows the
carryover (`Left: a` of the titleless `Slide 1` surfaces in `Slide 2`'s
record); the third shows a titleless trailing record is dropped whole at
end of file. -/
theorem c1_emitted_records_titled :
    (∀ lines : List (List Char), ∀ r ∈ parseContentFile lines, r.title ≠ []) ∧
      parseContentFile [str "Slide 1", str "Left: a", str "Slide 2",
          str "Title: U", str "Right: b"] =
        [{ emptyRecord with
            title := str "U"
            left := [str "a"]
            right := [str "b"] }] ∧
      parseContentFile [str "Slide 1", str "Content: dropped"] = [] := by
  refine ⟨?_, by decide, by decide⟩
  intro lines r hr
  simp only [parseContentFile] at hr
  split at hr
  · rcases List.mem_append.mp hr with hr2 | hr2
    · exact parse_foldl_titled lines ⟨[], emptyRecord, none⟩ (by simp) r hr2
    · rw [List.mem_singleton.mp hr2]
      assumption
  · exact parse_foldl_titled lines ⟨[], emptyRecord, none⟩ (by simp) r hr

/-- C1, witness: the title invariant instantiated on a concrete file and
its emitted record. -/
theorem c1_emitted_records_titled_witness :
    ({ emptyRecord with title := str "V" } : SlideRecord).title ≠ [] :=
  c1_emitted_records_titled.1 [str "Slide 1", str "Title: V"]
    { emptyRecord with title := str "V" } (by decide)

/-- C8: for a fixed text and fixed non-negative box dimensions, the overflow
estimator is monotone in a positive font size: a larger font never needs
fewer estimated lines and never has more lines available. -/
theorem c8_overflow_monotone :
    ∀ (text : List Char) (w h f1 f2 : ℚ),
      0 < f1 → f1 ≤ f2 → 0 ≤ w → 0 ≤ h →
      (checkTextOverflow text f1 w h).2.1 ≤ (checkTextOverflow text f2 w h).2.1 ∧
        (checkTextOverflow text f2 w h).2.2 ≤ (checkTextOverflow text f1 w h).2.2 := by
  intro text w h f1 f2 hf1 hle hw hh
  have hcap : w * (72 / f2 * 2.5) ≤ w * (72 / f1 * 2.5) := by
    have h72 : (72:ℚ) / f2 ≤ 72 / f1 :=
      div_antitone_pos (by norm_num) hf1 hle
    exact mul_le_mul_of_nonneg_left
      (mul_le_mul_of_nonneg_right h72 (by norm_num)) hw
  have hd1 : 0 < f1 / 72 * 1.3 := by positivity
  have hdle : f1 / 72 * 1.3 ≤ f2 / 72 * 1.3 := by
    have h0 : ∀ f : ℚ, f / 72 * 1.3 = f * (13 / 720) := fun f => by ring
    rw [h0 f1, h0 f2]
    exact mul_le_mul_of_nonneg_right hle (by norm_num)
  constructor
  · show linesNeededFor (pyInt (w * (72 / f1 * 2.5))) (wordLens text) ≤
      linesNeededFor (pyInt (w * (72 / f2 * 2.5))) (wordLens text)
    exact linesNeededFor_mono _ _ (pyInt_mono hcap) _ (wordLens_nonneg text)
  · show pyInt (h / (f2 / 72 * 1.3)) ≤ pyInt (h / (f1 / 72 * 1.3))
    exact pyInt_mono (div_antitone_pos hh hd1 hdle)

/-- C8, witness: the monotonicity theorem applied to a concrete text and
geometry at font sizes 20 and 30. -/
theorem c8_overflow_monotone_witness :
    (0:ℚ) < 20 ∧ (20:ℚ) ≤ 30 ∧ (0:ℚ) ≤ 5 ∧ (0:ℚ) ≤ 3 ∧
      ((checkTextOverflow (str "hello wrapped world") 20 5 3).2.1 ≤
          (checkTextOverflow (str "hello wrapped world") 30 5 3).2.1 ∧
        (checkTextOverflow (str "hello wrapped world") 30 5 3).2.2 ≤
          (checkTextOverflow (str "hello wrapped world") 20 5 3).2.2) :=
  ⟨by decide, by decide, by decide, by decide,
    c8_overflow_monotone (str "hello wrapped world") 5 3 20 30
      (by decide) (by decide) (by decide) (by decide)⟩

/-- C6: `split_questions` never returns an empty sequence; every fragment
collected by the splitting loop is trimmed and ends with `?` (a trailing `?`
is appended when missing), and when the loop collects no fragments (every
split piece strips to empty) the result is the single-element sequence
containing the original text unchanged. -/
theorem c6_split_questions_shape :
    ∀ s : List Char,
      splitQuestions s ≠ [] ∧
        ((∀ q ∈ splitQuestions s, stripC q = q ∧ q.getLast? = some '?') ∨
          splitQuestions s = [s]) := by
  intro s
  have hlet : splitQuestions s =
      if (qSplit s).foldl appendQ [] = [] then [s]
      else (qSplit s).foldl appendQ [] := rfl
  cases hr : (qSplit s).foldl appendQ [] with
  | nil =>
    rw [hlet, hr]
    exact ⟨by simp, Or.inr (by simp)⟩
  | cons a t =>
    rw [hlet, hr]
    simp only [if_neg (List.cons_ne_nil a t)]
    refine ⟨List.cons_ne_nil a t, Or.inl ?_⟩
    intro q hq
    exact foldl_appendQ_good (qSplit s) [] (by simp) q (by rw [hr]; exact hq)

/-- C6, witness: the fragment property instantiated on `"A? B?"`, whose
first returned fragment is `"A?"`. -/
theorem c6_split_questions_shape_witness :
    stripC (str "A?") = str "A?" ∧ (str "A?").getLast? = some '?' := by
  rcases (c6_split_questions_shape (str "A? B?")).2 with h2 | h2
  · exact h2 (str "A?") (by decide)
  · exact absurd h2 (by decide)

/-- C5, counterexample: on `["- a", "", ""]` one of one non-empty line
matches a bullet pattern, so the claim ("at least half of the non-empty
lines") predicts `true`; the source divides by the total number of lines and
returns `false`. -/
theorem c5_half_counterexample :
    isListContent [str "- a", str "", str ""] = false ∧
      specIsListHalfNonEmpty [str "- a", str "", str ""] = true := by
  exact ⟨by decide, by decide⟩

/-- C5 (amended): `is_list_content` is true exactly when the group is
non-empty and at least half of *all* its lines (empty lines counted in the
denominator) match one of the four bullet patterns; the 50% threshold is
exact: 2 matching lines of 4 give `true`, 1 of 4 gives `false`. -/
theorem c5_is_list_threshold :
    (∀ lines : List (List Char),
        isListContent lines = true ↔
          lines ≠ [] ∧ 2 * lines.countP matchesBulletPat ≥ lines.length) ∧
      isListContent [str "- a", str "1. b", str "x", str "y"] = true ∧
      isListContent [str "- a", str "x", str "y", str "z"] = false := by
  refine ⟨?_, by decide, by decide⟩
  intro lines
  cases lines with
  | nil => simp [isListContent]
  | cons a t => simp [isListContent]

/-- C7, counterexample: on `"- 1. hello"` the claim ("a line carrying
markers of several forms loses only the first marker") predicts
`"1. hello"`, but the source's three sequential substitutions return
`"hello"`. -/
theorem c7_single_marker_counterexample :
    cleanBulletMarker (str "- 1. hello") = str "hello" ∧
      specCleanOneMarker (str "- 1. hello") = str "1. hello" ∧
      cleanBulletMarker (str "- 1. hello") ≠
        specCleanOneMarker (str "- 1. hello") := by
  exact ⟨by decide, by decide, by decide⟩

/-- C7 (amended): the cleaner applies three anchored substitutions in
sequence — glyph, then numeric-dot, then lowercase letter-paren — each
removing at most one leading marker of its own form (a pass whose pattern
does not match leaves the line unchanged), so a line stacking markers of
distinct forms in that order can lose up to three markers; uppercase
letter-dot (`A.`) markers are never stripped. -/
theorem c7_cleaner_passes :
    (∀ l, matchBulletGlyph l = false → stripGlyphMarker l = l) ∧
      (∀ l, matchBulletNum l = false → stripNumMarker l = l) ∧
      (∀ l, matchBulletLowerParen l = false → stripLowerParenMarker l = l) ∧
      (∀ l, matchBulletUpperDot l = true → cleanBulletMarker l = l) ∧
      cleanBulletMarker (str "- 1. a) x") = str "x" := by
  refine ⟨stripGlyphMarker_of_no_match, stripNumMarker_of_no_match,
    stripLowerParenMarker_of_no_match, ?_, by decide⟩
  intro l h
  unfold matchBulletUpperDot at h
  rcases hl : lstripC l with _ | ⟨a, _ | ⟨b, rest⟩⟩ <;> rw [hl] at h
  · simp at h
  · simp at h
  · simp only [Bool.and_eq_true, decide_eq_true_eq] at h
    obtain ⟨ha, hb⟩ := h
    subst hb
    have hglyph : stripGlyphMarker l = l := by
      unfold stripGlyphMarker
      rw [hl]
      simp [upper_not_glyph a ha]
    have hnum : stripNumMarker l = l := by
      apply stripNumMarker_of_no_match
      unfold matchBulletNum
      cases hdt : digitsThenDot (lstripC l) with
      | false => rfl
      | true =>
        exfalso
        rw [digitsThenDot_iff, hl] at hdt
        simp [List.takeWhile_cons, upper_not_digit a ha] at hdt
    have hlp : stripLowerParenMarker l = l := by
      unfold stripLowerParenMarker
      rw [hl]
      simp
    unfold cleanBulletMarker
    rw [hglyph, hnum, hlp]

/-- C7, witness for the hypothesis-bearing conjuncts: instantiated at
`"A. hi"` (upper-dot marker kept) and `"zz"` (no glyph marker). -/
theorem c7_cleaner_passes_witness :
    cleanBulletMarker (str "A. hi") = str "A. hi" ∧
      stripGlyphMarker (str "zz") = str "zz" :=
  ⟨c7_cleaner_passes.2.2.2.1 (str "A. hi") (by decide),
    c7_cleaner_passes.1 (str "zz") (by decide)⟩

/-- C2: the layout mode is chosen by strict first-match priority —
`Reading` iff `left_top` and `left_bottom` are non-empty and `right_top`
and `right_bottom` are empty; otherwise `FourBox` iff some box region is
non-empty; otherwise `TwoColumn` iff `left` or `right` is non-empty;
otherwise `Single`.  Concretely, `left_top=["A"], left_bottom=["B"]` gives
`Reading` and additionally `right_top=["C"]` gives `FourBox`. -/
theorem c2_layout_priority :
    (∀ s : SlideRecord,
        (layoutMode s = .Reading ↔
          s.left_top ≠ [] ∧ s.left_bottom ≠ [] ∧
            s.right_top = [] ∧ s.right_bottom = []) ∧
        (layoutMode s = .FourBox ↔
          (s.left_top ≠ [] ∨ s.right_top ≠ [] ∨
              s.left_bottom ≠ [] ∨ s.right_bottom ≠ []) ∧
            ¬(s.left_top ≠ [] ∧ s.left_bottom ≠ [] ∧
                s.right_top = [] ∧ s.right_bottom = [])) ∧
        (layoutMode s = .TwoColumn ↔
          (s.left ≠ [] ∨ s.right ≠ []) ∧
            s.left_top = [] ∧ s.right_top = [] ∧
            s.left_bottom = [] ∧ s.right_bottom = []) ∧
        (layoutMode s = .Single ↔
          s.left = [] ∧ s.right = [] ∧
            s.left_top = [] ∧ s.right_top = [] ∧
            s.left_bottom = [] ∧ s.right_bottom = [])) ∧
      layoutMode { emptyRecord with
        left_top := [str "A"], left_bottom := [str "B"] } = .Reading ∧
      layoutMode { emptyRecord with
        left_top := [str "A"], left_bottom := [str "B"],
        right_top := [str "C"] } = .FourBox := by
  refine ⟨?_, by decide, by decide⟩
  intro s
  rcases s with ⟨ti, co, no, im, le, ri, lt, rt, lb, rb, te⟩
  cases le <;> cases ri <;> cases lt <;> cases rt <;> cases lb <;> cases rb <;>
    simp [layoutMode]

/-- C9, counterexample: the claim's expected output
`"x²  +  H₂O  ≤  π"` has doubled spaces; each substitution replaces only the
matched characters, so the single spaces of the input survive unchanged and
the actual output differs from the claimed one. -/
theorem c9_spacing_counterexample :
    processMath (str "x^2 + H_2O <= pi") ≠ str "x²  +  H₂O  ≤  π" := by
  decide

/-- C9 (amended): the normalizer applies, in order, caret-digit to
superscript, underscore-digit to subscript, then the literal substring table
(`<=`, `>=`, `!=`, `~=`, Greek names); on `"x^2 + H_2O <= pi"` it returns
exactly `"x² + H₂O ≤ π"` (the input's single spaces preserved). -/
theorem c9_math_example :
    processMath (str "x^2 + H_2O <= pi") = str "x² + H₂O ≤ π" := by
  decide

/-- C4, counterexample: for the unknown tag `[unknownx]`, `apply_style`
finds no style entry and *does nothing*, so neither the caller-supplied
size nor the configured body color is assigned to the paragraph
(both stay unset), contradicting "the default body styling is applied". -/
theorem c4_unknown_tag_counterexample :
    lookupD defaultConfig.styles (str "unknownx") = none ∧
      renderLineFont (str "[unknownx] hi") 22 defaultConfig ≠
        specUnknownTagFont 22 defaultConfig ∧
      (renderLineFont (str "[unknownx] hi") 22 defaultConfig).size = none ∧
      (renderLineFont (str "[unknownx] hi") 22 defaultConfig).color = none := by
  exact ⟨by decide, by decide, by decide, by decide⟩

/-- C4 (amended): for a line whose leading bracketed tag names a style
absent from the configuration's style table, the tag is stripped and
`apply_style` silently leaves the paragraph untouched: the paragraph gets
only the configured font family, and neither the caller-supplied font size
nor the body text color (nor bold/italic) is assigned; no error is raised
(the rendering function is total). -/
theorem c4_unknown_tag_no_styling :
    ∀ (item s txt : List Char) (cfg : Config) (fontSize : Nat),
      parseStyledText item = (some s, txt) →
      lookupD cfg.styles s = none →
      renderLineFont item fontSize cfg =
        { name := some cfg.font_name, size := none, color := none,
          bold := none, italic := none } := by
  intro item s txt cfg fontSize hparse hlook
  unfold renderLineFont
  rw [hparse]
  simp [applyStyle, hlook]

/-- C4, witness: the amended theorem applied to `"[zzz] hi"` under the
default configuration. -/
theorem c4_unknown_tag_witness :
    renderLineFont (str "[zzz] hi") 22 defaultConfig =
      { name := some (str "Montserrat"), size := none, color := none,
        bold := none, italic := none } :=
  c4_unknown_tag_no_styling (str "[zzz] hi") (str "zzz") (str "hi")
    defaultConfig 22 (by decide) (by decide)

/-- C3: the claim (and the repository's own format documentation) says lines
starting with `#` are comments and are ignored, but `parse_content_file` has
no comment handling at all: with an active section, the comment line is
appended to that section's region and emitted. -/
theorem c3_comment_line_appended :
    parseContentFile
        [str "Slide 1", str "Title: T", str "Content: intro", str "# comment"] =
      [{ emptyRecord with
          title := str "T"
          content := [str "intro", str "# comment"] }] := by
  decide

end Myes
